import Mathlib

/-!
# Parallel Block BPE: a shallow embedding of the merge engine

The development follows the four translation units of the engine and the loader of the
merge table:

* `parallel_blockbpe_find.cpp`  : `find_best_pair_parallel`
* `parallel_blockbpe_mark.cpp`  : `mark_merges_parallel`
* `parallel_blockbpe_apply.cpp` : `apply_merges_parallel`
* `parallel_blockbpe.cpp`       : `block_bpe_encode_parallel`
* `merges_loader.cpp`           : `load_gpt2_merges`

Conventions of the embedding.

* `std::vector<T>` is a `List`; `v[i]` is `v.getD i 0` and `v[i] = x` is `v.set i x`.
* Tokens and ranks are C++ `int`s and are modelled by `Int`; the only place where the
  width of `int` is visible is the sentinel `std::numeric_limits<int>::max()`.
* Indices, `char` flags (0/1), emission flags and running sums are modelled by `Nat`.
  They are non-negative in every execution and the model agrees with the code for
  sequences of fewer than `2^31` tokens (the code casts `size()` to `int`).
* `std::unordered_map` is an association list read with `List.lookup`; an assignment
  `m[k] = v` puts the new binding in front, where it shadows an older one.
* A file is the list of its lines, a `std::string` the list of its bytes.
* What the OpenMP runtime decides (which thread runs which iteration, in which order the
  threads reach the critical section, how many threads a team has) is an explicit
  parameter: `OmpRuntime`.  Loops whose iterations write pairwise distinct cells are
  folded in index order.
* `while (true)` is a loop with fuel; the theorems show that the fuel given by
  `block_bpe_encode_parallel` is always enough.
-/

namespace BlockBPE

/-! ## Data model (`merges_loader.h`) -/

/-- A merge rule: `struct MergeRule { int rank; int new_token_id; }`. -/
structure MergeRule where
  rank : Int
  new_token_id : Int
deriving DecidableEq, Repr

/-- The merge table `std::unordered_map<std::pair<int,int>, MergeRule, PairHash>`,
read with `List.lookup` (the first binding of a key is the binding of the map). -/
abbrev MergeTable := List ((Int × Int) × MergeRule)

/-- The sentinel `std::numeric_limits<int>::max()` for a 32-bit `int`. -/
def INT_MAX : Int := 2147483647

/-- A thread-local or global running best: `(best_rank, best_pair)`. -/
abbrev Best := Int × (Int × Int)

/-- The initial value `(INT_MAX, {-1, -1})` of `local_best_*` and `global_best_*`. -/
def best_init : Best := (INT_MAX, (-1, -1))

/-! ## The OpenMP runtime -/

/-- The choices the OpenMP runtime makes during one run of the encoder.

* `shards round m` describes the parallel region of `find_best_pair_parallel` in round
  `round`, whose loop has `m` iterations: one list per thread, holding the iterations
  that thread executes in the order it executes them; the threads are listed in the
  order in which they enter the critical section.
* `nthr round` is `omp_get_num_threads()` in the scan region of `apply_merges_parallel`
  in round `round`. -/
structure OmpRuntime where
  shards : Nat → Nat → List (List Nat)
  nthr : Nat → Nat

/-- A shard list is a schedule of a loop of `m` iterations when every iteration
`0, ..., m-1` is executed exactly once. -/
def is_schedule (sh : List (List Nat)) (m : Nat) : Prop :=
  (sh.flatten).Perm (List.range m)

/-- A runtime is valid when every work-sharing loop is scheduled and every team has at
least one thread. -/
def OmpRuntime.valid (rt : OmpRuntime) : Prop :=
  (∀ round m, is_schedule (rt.shards round m) m) ∧ ∀ round, 0 < rt.nthr round

/-- Chunk boundary `(n * tid) / nthr` (lines 52-53 of `parallel_blockbpe_apply.cpp`). -/
def chunk_bound (n nthr tid : Nat) : Nat := n * tid / nthr

/-- The contiguous block schedule of `m` iterations over `k` threads, threads entering the
critical section in thread order. -/
def static_shards (k m : Nat) : List (List Nat) :=
  (List.range k).map
    (fun t => List.range' (chunk_bound m k t) (chunk_bound m k (t + 1) - chunk_bound m k t))

/-- A runtime with `k` threads, block schedule, critical section entered in thread
order. -/
def omp_static (k : Nat) : OmpRuntime :=
  { shards := fun _ m => static_shards k m, nthr := fun _ => k }

/-- A runtime with `k` threads, block schedule, critical section entered in reverse
thread order. -/
def omp_static_rev (k : Nat) : OmpRuntime :=
  { shards := fun _ m => (static_shards k m).reverse, nthr := fun _ => k }

/-! ## Pair Finder (`parallel_blockbpe_find.cpp`) -/

/-- The pair `{tokens[i], tokens[i+1]}` looked up in iteration `i`. -/
def pair_at (tokens : List Int) (i : Nat) : Int × Int :=
  (tokens.getD i 0, tokens.getD (i + 1) 0)

/-- One iteration of the loop of lines 23-33 on the thread-local best. -/
def find_step (tokens : List Int) (merges : MergeTable) (best : Best) (i : Nat) : Best :=
  match merges.lookup (pair_at tokens i) with
  | none => best
  | some rule => if rule.rank < best.1 then (rule.rank, pair_at tokens i) else best

/-- The thread-local result of a thread that executes the iterations `iters`. -/
def local_best (tokens : List Int) (merges : MergeTable) (iters : List Nat) : Best :=
  iters.foldl (find_step tokens merges) best_init

/-- The critical section of lines 36-42: fold a thread-local result into the global one. -/
def combine (global loc : Best) : Best :=
  if loc.1 < global.1 then loc else global

/-- The function `find_best_pair_parallel` under the schedule `shards`. -/
def find_best_pair_parallel (shards : List (List Nat)) (tokens : List Int)
    (merges : MergeTable) : Option (Int × Int) :=
  let global := shards.foldl (fun g sh => combine g (local_best tokens merges sh)) best_init
  if global.1 = INT_MAX then none else some global.2

/-! ## Overlap Resolver (`parallel_blockbpe_mark.cpp`) -/

/-- Pass A (lines 22-27): `tentative[i] = 1` where the pair starts at `i`. -/
def mark_passA (tokens : List Int) (left right : Int) (n : Nat) : List Nat :=
  (List.range (n - 1)).foldl
    (fun tentative i =>
      if tokens.getD i 0 = left ∧ tokens.getD (i + 1) 0 = right then tentative.set i 1
      else tentative)
    (List.replicate n 0)

/-- Pass B (lines 30-40): the sequential `while (i + 1 < n)` loop, returning the final
`i` and `marks`. -/
def mark_passB (tentative : List Nat) (n : Nat) : Nat → Nat → List Nat → Nat × List Nat
  | 0, i, marks => (i, marks)
  | fuel + 1, i, marks =>
    if i + 1 < n then
      if tentative.getD i 0 ≠ 0 then
        mark_passB tentative n fuel (i + 2) (marks.set i 1)
      else
        mark_passB tentative n fuel (i + 1) (marks.set i 0)
    else (i, marks)

/-- The function `mark_merges_parallel`. -/
def mark_merges_parallel (tokens : List Int) (best_pair : Int × Int) : List Nat :=
  let n := tokens.length
  let marks := List.replicate n 0
  if n < 2 then marks
  else
    let tentative := mark_passA tokens best_pair.1 best_pair.2 n
    let r := mark_passB tentative n n 0 marks
    if r.1 < n then r.2.set r.1 0 else r.2

/-! ## Compactor (`parallel_blockbpe_apply.cpp`) -/

/-- Step 1 (lines 17-31): the emission flags. -/
def emit_flags (marks : List Nat) (n : Nat) : List Nat :=
  (List.range n).foldl
    (fun emit i =>
      if marks.getD i 0 = 1 then emit.set i 1
      else if 0 < i ∧ marks.getD (i - 1) 0 = 1 then emit.set i 0
      else emit.set i 1)
    (List.replicate n 0)

/-- Lines 55-59: the local inclusive running sum of one thread over `[start, stop)`,
returning the final `sum` and the updated scan array. -/
def chunk_scan (emit : List Nat) (start stop : Nat) (scan : List Nat) : Nat × List Nat :=
  (List.range' start (stop - start)).foldl
    (fun st i => (st.1 + emit.getD i 0, st.2.set i (st.1 + emit.getD i 0)))
    (0, scan)

/-- Lines 51-60 for every thread of the team, up to the barrier: the state is the scan
array and `chunk_sums`. -/
def scan_local (emit : List Nat) (n nthr : Nat) : List Nat × List Nat :=
  (List.range nthr).foldl
    (fun st tid =>
      let r := chunk_scan emit (chunk_bound n nthr tid) (chunk_bound n nthr (tid + 1)) st.1
      (r.2, st.2.set tid r.1))
    (List.replicate n 0, List.replicate nthr 0)

/-- Lines 65-68: the offset of thread `tid`. -/
def chunk_offset (chunk_sums : List Nat) (tid : Nat) : Nat :=
  (List.range tid).foldl (fun offset k => offset + chunk_sums.getD k 0) 0

/-- Lines 71-73: add `offset` to the cells of `[start, stop)`. -/
def add_offset (offset start stop : Nat) (scan : List Nat) : List Nat :=
  (List.range' start (stop - start)).foldl
    (fun sc i => sc.set i (sc.getD i 0 + offset)) scan

/-- Step 2 (lines 34-75): the two-level inclusive scan of `emit` with a team of `nthr`
threads. -/
def scan_two_level (emit : List Nat) (n nthr : Nat) : List Nat :=
  let loc := scan_local emit n nthr
  (List.range nthr).foldl
    (fun sc tid =>
      let offset := chunk_offset loc.2 tid
      if offset ≠ 0 then
        add_offset offset (chunk_bound n nthr tid) (chunk_bound n nthr (tid + 1)) sc
      else sc)
    loc.1

/-- Step 3 (lines 81-97): the scatter loop into `out`. -/
def scatter (tokens : List Int) (marks emit scan : List Nat) (new_token_id : Int)
    (n : Nat) (out : List Int) : List Int :=
  (List.range n).foldl
    (fun out i =>
      if emit.getD i 0 = 0 then out
      else
        let pos := scan.getD i 0 - 1
        if marks.getD i 0 = 1 then out.set pos new_token_id
        else if ¬ (0 < i ∧ marks.getD (i - 1) 0 = 1) then out.set pos (tokens.getD i 0)
        else out)
    out

/-- The function `apply_merges_parallel`, run by a team of `nthr` threads. -/
def apply_merges_parallel (nthr : Nat) (tokens : List Int) (marks : List Nat)
    (new_token_id : Int) : List Int :=
  let n := tokens.length
  if n = 0 then []
  else
    let emit := emit_flags marks n
    let scan := scan_two_level emit n nthr
    let out_len := scan.getD (n - 1) 0
    scatter tokens marks emit scan new_token_id n (List.replicate out_len 0)

/-! ## Encode loop (`parallel_blockbpe.cpp`) -/

/-- How a run of the encoder ends.  `done` carries the returned sequence together with two
ghost counters: the number of rounds in which the Pair Finder returned a pair, and the
total number of marks committed. -/
inductive Outcome where
  | done (tokens : List Int) (rounds : Nat) (merged : Nat)
  | out_of_range
  | out_of_fuel
deriving DecidableEq, Repr

/-- Number of set marks (`marks[i] == 1`). -/
def count_marks (marks : List Nat) : Nat := marks.count 1

/-- The `while (true)` loop of lines 12-30.  `merges.at(best_pair)` throws
`std::out_of_range` on a missing key. -/
def encode_loop (rt : OmpRuntime) (merges : MergeTable) :
    Nat → Nat → Nat → List Int → Outcome
  | 0, _, _, _ => Outcome.out_of_fuel
  | fuel + 1, round, merged, tokens =>
    match find_best_pair_parallel (rt.shards round (tokens.length - 1)) tokens merges with
    | none => Outcome.done tokens round merged
    | some best_pair =>
      match merges.lookup best_pair with
      | none => Outcome.out_of_range
      | some rule =>
        let marks := mark_merges_parallel tokens best_pair
        let new_tokens := apply_merges_parallel (rt.nthr round) tokens marks rule.new_token_id
        encode_loop rt merges fuel (round + 1) (merged + count_marks marks) new_tokens

/-- The encoder with an explicit bound on the number of loop iterations. -/
def block_bpe_encode_fuel (fuel : Nat) (rt : OmpRuntime) (input_tokens : List Int)
    (merges : MergeTable) : Outcome :=
  if input_tokens = [] then Outcome.done input_tokens 0 0
  else encode_loop rt merges fuel 0 0 input_tokens

/-- The function `block_bpe_encode_parallel`: the loop never needs more iterations than
the input has tokens. -/
def block_bpe_encode_parallel (rt : OmpRuntime) (input_tokens : List Int)
    (merges : MergeTable) : Outcome :=
  block_bpe_encode_fuel input_tokens.length rt input_tokens merges

/-! ## Reference definitions taken from the specification -/

/-- The merge pass of the specification for one round: at the current position, output
`m` and skip two tokens when the next two tokens are `(left, right)`, otherwise output the
current token and skip one. -/
def merge_pass (left right m : Int) : List Int → List Int
  | [] => []
  | [a] => [a]
  | a :: b :: rest =>
    if a = left ∧ b = right then m :: merge_pass left right m rest
    else a :: merge_pass left right m (b :: rest)

/-- The tentative array of the specification: `tentative[i]` iff
`tokens[i] == left && tokens[i+1] == right`. -/
def tentative_spec (left right : Int) (tokens : List Int) : List Bool :=
  (List.range tokens.length).map
    (fun i => decide (i + 1 < tokens.length ∧ tokens.getD i 0 = left ∧
      tokens.getD (i + 1) 0 = right))

/-- The sequential walk of the specification over a tentative array: commit and advance by
two on a match, advance by one otherwise. -/
def greedy_walk : List Bool → List Nat
  | [] => []
  | [_] => [0]
  | t :: u :: rest =>
    if t then 1 :: 0 :: greedy_walk rest else 0 :: greedy_walk (u :: rest)

/-- The single-threaded inclusive scan with running sum `acc`. -/
def inclusive_scan_from (acc : Nat) : List Nat → List Nat
  | [] => []
  | x :: xs => (acc + x) :: inclusive_scan_from (acc + x) xs

/-- The single-threaded inclusive scan of the specification. -/
def inclusive_scan (xs : List Nat) : List Nat := inclusive_scan_from 0 xs

/-! ## Predicates used in the proofs -/

/-- The running best `b` summarises the iterations satisfying `P`: either nothing with a
rank below the sentinel was seen and `b` is still the initial value, or `b` is a seen
pair of minimum rank. -/
def best_inv (tokens : List Int) (merges : MergeTable) (P : Nat → Prop) (b : Best) : Prop :=
  (b = best_init ∧
    ∀ j, P j → ∀ r, merges.lookup (pair_at tokens j) = some r → INT_MAX ≤ r.rank) ∨
  (b.1 < INT_MAX ∧
    (∃ i, P i ∧ ∃ r, merges.lookup (pair_at tokens i) = some r ∧ r.rank = b.1 ∧
      b.2 = pair_at tokens i) ∧
    ∀ j, P j → ∀ r, merges.lookup (pair_at tokens j) = some r → b.1 ≤ r.rank)

/-- The emission flag of index `i` as the specification defines it: `0` for the right half
of a committed pair, `1` otherwise. -/
def emit_val (marks : List Nat) (i : Nat) : Nat :=
  if marks.getD i 0 = 1 then 1
  else if 0 < i ∧ marks.getD (i - 1) 0 = 1 then 0
  else 1

/-- The sum `emit[start] + ... + emit[start + len - 1]`. -/
def range_sum (emit : List Nat) (start len : Nat) : Nat :=
  ((List.range' start len).map (fun i => emit.getD i 0)).sum

/-- The value an emitting index writes: the merged id at the left half of a committed
pair, the token itself elsewhere. -/
def out_val (tokens : List Int) (marks : List Nat) (new_token_id : Int) (i : Nat) : Int :=
  if marks.getD i 0 = 1 then new_token_id else tokens.getD i 0

/-- Stream compaction of the first `n` indices: the values of the emitting indices, in
index order. -/
def compacted (tokens : List Int) (marks : List Nat) (new_token_id : Int) (n : Nat) :
    List Int :=
  (List.range n).filterMap
    (fun i => if emit_val marks i = 0 then none else some (out_val tokens marks new_token_id i))

/-- The pair `(left, right)` occurs at some adjacent position of the sequence. -/
def occurs (left right : Int) (tokens : List Int) : Prop :=
  ∃ i, i + 1 < tokens.length ∧ tokens.getD i 0 = left ∧ tokens.getD (i + 1) 0 = right

/-- No adjacent pair of the sequence is a key of the table. -/
def no_mergeable_pair (merges : MergeTable) (tokens : List Int) : Prop :=
  ∀ i, i + 1 < tokens.length → merges.lookup (pair_at tokens i) = none

/-- No adjacent pair of the sequence is a key whose rank is below the sentinel. -/
def no_candidate (merges : MergeTable) (tokens : List Int) : Prop :=
  ∀ i, i + 1 < tokens.length → ∀ r, merges.lookup (pair_at tokens i) = some r →
    INT_MAX ≤ r.rank

/-- Every rank of the table is below the sentinel `INT_MAX`. -/
def ranks_below_sentinel (merges : MergeTable) : Prop :=
  ∀ p r, merges.lookup p = some r → r.rank < INT_MAX

/-- The table invariant of the specification: distinct pairs have distinct ranks. -/
def rank_injective (merges : MergeTable) : Prop :=
  ∀ p q rp rq, merges.lookup p = some rp → merges.lookup q = some rq →
    rp.rank = rq.rank → p = q

/-- Index `i` is the right half of a committed pair: `i > 0 && marks[i-1] == 1`. -/
def right_half (marks : List Nat) (i : Nat) : Prop :=
  0 < i ∧ marks.getD (i - 1) 0 = 1

instance (marks : List Nat) (i : Nat) : Decidable (right_half marks i) := by
  unfold right_half
  exact inferInstance

/-- The destination index `pos = scan[i] - 1` of line 88 of `parallel_blockbpe_apply.cpp`
for a team of `nthr` threads. -/
def dest (nthr : Nat) (tokens : List Int) (marks : List Nat) (i : Nat) : Nat :=
  (scan_two_level (emit_flags marks tokens.length) tokens.length nthr).getD i 0 - 1

/-- Index `i` is an occurrence of the pair `(left, right)`. -/
def occurrence (left right : Int) (tokens : List Int) (i : Nat) : Prop :=
  i + 1 < tokens.length ∧ tokens.getD i 0 = left ∧ tokens.getD (i + 1) 0 = right

/-! ## Merge-rule loader (`merges_loader.cpp`) -/

/-- A `std::string`, as the list of its bytes `0..255`. -/
abbrev Bytes := List Nat

/-- The vocabulary `std::unordered_map<std::string, int>`, read with `List.lookup`. -/
abbrev Vocab := List (Bytes × Int)

/-- The whitespace test of `operator>>`: space, `\t`, `\n`, `\v`, `\f`, `\r`. -/
def is_space (c : Nat) : Bool := c == 32 || (9 ≤ c && c ≤ 13)

/-- One extraction `ss >> word`: skip leading whitespace, then read up to the next
whitespace.  It fails when no character is read; otherwise it returns the word and the
rest of the stream. -/
def read_word (s : Bytes) : Option (Bytes × Bytes) :=
  let s1 := s.dropWhile is_space
  let w := s1.takeWhile (fun c => !is_space c)
  if w = [] then none else some (w, s1.dropWhile (fun c => !is_space c))

/-- The condition `ss >> A >> B`: the first two words of the line, if it has two. -/
def parse_pair (line : Bytes) : Option (Bytes × Bytes) :=
  match read_word line with
  | none => none
  | some (A, rest) =>
    match read_word rest with
    | none => none
    | some (B, _) => some (A, B)

/-- The string `"#version"`. -/
def version_header : Bytes := [35, 118, 101, 114, 115, 105, 111, 110]

/-- The test `line.rfind(pat, 0) == 0`: the line starts with `pat`. -/
def starts_with : Bytes → Bytes → Bool
  | _, [] => true
  | [], _ :: _ => false
  | c :: cs, p :: ps => c == p && starts_with cs ps

/-- The local variables of `load_gpt2_merges`, together with one ghost field: `parsed`
lists the keys `(left_id, right_id)` produced by the successfully parsed merge lines, in
the order of the lines. -/
structure LoaderState where
  vocab : Vocab
  next_token_id : Int
  merges : MergeTable
  rank : Int
  parsed : List (Int × Int)

/-- Lines 16-24 and 36: the byte vocabulary, `next_token_id = 256`, `rank = 0`. -/
def loader_init : LoaderState :=
  { vocab := (List.range 256).foldl (fun v i => ([i], (i : Int)) :: v) [],
    next_token_id := 256,
    merges := [],
    rank := 0,
    parsed := [] }

/-- The statement `if (vocab.count(w) == 0) vocab[w] = next_token_id++;`. -/
def ensure_token (st : LoaderState) (w : Bytes) : LoaderState :=
  if (st.vocab.lookup w).isNone then
    { st with vocab := (w, st.next_token_id) :: st.vocab,
              next_token_id := st.next_token_id + 1 }
  else st

/-- Lines 74-94 (and 46-60 for the first line): register `A`, `B` and `A + B`, store the
rule under the key `(vocab[A], vocab[B])` (the new binding shadows an older rule of that
key), and increment `rank`. -/
def add_rule (st : LoaderState) (A B : Bytes) : LoaderState :=
  let st3 := ensure_token (ensure_token (ensure_token st A) B) (A ++ B)
  let left_id := (st3.vocab.lookup A).getD 0
  let right_id := (st3.vocab.lookup B).getD 0
  let merged_id := (st3.vocab.lookup (A ++ B)).getD 0
  { st3 with merges := ((left_id, right_id), ⟨st3.rank, merged_id⟩) :: st3.merges,
             rank := st3.rank + 1,
             parsed := st3.parsed ++ [(left_id, right_id)] }

/-- The body of the loop of lines 67-95 for one line. -/
def process_line (st : LoaderState) (line : Bytes) : LoaderState :=
  if line.length < 2 then st
  else
    match parse_pair line with
    | none => st
    | some (A, B) => add_rule st A B

/-- Lines 39-62: the first line is skipped when it is the version header and is otherwise
processed as a merge line. -/
def process_first (st : LoaderState) (line : Bytes) : LoaderState :=
  if starts_with line version_header then st
  else
    match parse_pair line with
    | none => st
    | some (A, B) => add_rule st A B

/-- The state of `load_gpt2_merges` at its `return`.  The file is `none` when it cannot be
opened and otherwise the list of its lines; ranks are counted without overflow, as they
are for files of fewer than `2^31` merge lines. -/
def load_state (file : Option (List Bytes)) : LoaderState :=
  match file with
  | none => loader_init
  | some lines => lines.tail.foldl process_line (process_first loader_init (lines.headD []))

/-- The function `load_gpt2_merges`. -/
def load_gpt2_merges (file : Option (List Bytes)) : MergeTable :=
  (load_state file).merges

/-- The loader invariant: `rank` counts the parsed lines, and every rule of the table
carries the index of the last parsed line that produced its key. -/
def loader_inv (st : LoaderState) : Prop :=
  st.rank = (st.parsed.length : Int) ∧
  ∀ key rule, st.merges.lookup key = some rule →
    ∃ j : Nat, rule.rank = (j : Int) ∧ st.parsed[j]? = some key ∧
      ∀ j2, j < j2 → st.parsed[j2]? ≠ some key

/-! # Proofs -/

/-! ## Pair Finder: correctness of the reduction -/

theorem best_inv_init (tokens : List Int) (merges : MergeTable) :
    best_inv tokens merges (fun _ => False) best_init :=
  Or.inl ⟨rfl, fun _ h => h.elim⟩

theorem best_inv_congr {tokens : List Int} {merges : MergeTable} {P Q : Nat → Prop}
    {b : Best} (hPQ : ∀ j, P j ↔ Q j) (h : best_inv tokens merges P b) :
    best_inv tokens merges Q b := by
  have : P = Q := funext fun j => propext (hPQ j)
  rw [← this]; exact h

theorem find_step_inv {tokens : List Int} {merges : MergeTable} {P : Nat → Prop}
    {b : Best} (h : best_inv tokens merges P b) (i : Nat) :
    best_inv tokens merges (fun j => P j ∨ j = i) (find_step tokens merges b i) := by
  unfold find_step
  cases hl : merges.lookup (pair_at tokens i) with
  | none =>
    simp only
    rcases h with ⟨hb, hall⟩ | ⟨hlt, ⟨i0, hi0, hex⟩, hall⟩
    · refine Or.inl ⟨hb, ?_⟩
      intro j hj r hr
      rcases hj with hj | hj
      · exact hall j hj r hr
      · subst hj; rw [hl] at hr; cases hr
    · refine Or.inr ⟨hlt, ⟨i0, Or.inl hi0, hex⟩, ?_⟩
      intro j hj r hr
      rcases hj with hj | hj
      · exact hall j hj r hr
      · subst hj; rw [hl] at hr; cases hr
  | some rule =>
    simp only
    by_cases hc : rule.rank < b.1
    · rw [if_pos hc]
      have hbmax : b.1 ≤ INT_MAX := by
        rcases h with ⟨hb, _⟩ | ⟨hlt, _, _⟩
        · rw [hb]; exact le_refl _
        · exact le_of_lt hlt
      refine Or.inr ⟨lt_of_lt_of_le hc hbmax, ⟨i, Or.inr rfl, rule, hl, rfl, rfl⟩, ?_⟩
      intro j hj r hr
      rcases hj with hj | hj
      · rcases h with ⟨hb, hall⟩ | ⟨_, _, hall⟩
        · have := hall j hj r hr
          exact le_trans (le_of_lt (lt_of_lt_of_le hc hbmax)) this
        · exact le_trans (le_of_lt hc) (hall j hj r hr)
      · subst hj; rw [hl] at hr; cases hr; exact le_refl _
    · rw [if_neg hc]
      have hc2 : b.1 ≤ rule.rank := not_lt.mp hc
      rcases h with ⟨hb, hall⟩ | ⟨hlt, ⟨i0, hi0, hex⟩, hall⟩
      · refine Or.inl ⟨hb, ?_⟩
        intro j hj r hr
        rcases hj with hj | hj
        · exact hall j hj r hr
        · subst hj; rw [hl] at hr; cases hr
          rw [hb] at hc2; exact hc2
      · refine Or.inr ⟨hlt, ⟨i0, Or.inl hi0, hex⟩, ?_⟩
        intro j hj r hr
        rcases hj with hj | hj
        · exact hall j hj r hr
        · subst hj; rw [hl] at hr; cases hr; exact hc2

theorem foldl_find_step_inv {tokens : List Int} {merges : MergeTable} (iters : List Nat) :
    ∀ {P : Nat → Prop} {b : Best}, best_inv tokens merges P b →
      best_inv tokens merges (fun j => P j ∨ j ∈ iters)
        (iters.foldl (find_step tokens merges) b) := by
  induction iters with
  | nil =>
    intro P b h
    exact best_inv_congr (fun j => by simp) h
  | cons i rest ih =>
    intro P b h
    rw [List.foldl_cons]
    refine best_inv_congr (fun j => ?_) (ih (find_step_inv h i))
    simp only [List.mem_cons]
    tauto

theorem local_best_inv (tokens : List Int) (merges : MergeTable) (iters : List Nat) :
    best_inv tokens merges (fun j => j ∈ iters) (local_best tokens merges iters) := by
  unfold local_best
  exact best_inv_congr (fun j => by simp) (foldl_find_step_inv iters (best_inv_init tokens merges))

theorem combine_inv {tokens : List Int} {merges : MergeTable} {P Q : Nat → Prop}
    {g l : Best} (hg : best_inv tokens merges P g) (hl : best_inv tokens merges Q l) :
    best_inv tokens merges (fun j => P j ∨ Q j) (combine g l) := by
  unfold combine
  have hgmax : g.1 ≤ INT_MAX := by
    rcases hg with ⟨hb, _⟩ | ⟨hlt, _, _⟩
    · rw [hb]; exact le_refl _
    · exact le_of_lt hlt
  by_cases hc : l.1 < g.1
  · rw [if_pos hc]
    rcases hl with ⟨hb, _⟩ | ⟨hlt, ⟨i0, hi0, hex⟩, hallQ⟩
    · rw [hb] at hc; exact absurd (lt_of_lt_of_le hc hgmax) (lt_irrefl _)
    · refine Or.inr ⟨hlt, ⟨i0, Or.inr hi0, hex⟩, ?_⟩
      intro j hj r hr
      rcases hj with hj | hj
      · rcases hg with ⟨hb, hall⟩ | ⟨_, _, hall⟩
        · exact le_trans (le_of_lt hlt) (hall j hj r hr)
        · exact le_trans (le_of_lt hc) (hall j hj r hr)
      · exact hallQ j hj r hr
  · rw [if_neg hc]
    have hc2 : g.1 ≤ l.1 := not_lt.mp hc
    rcases hg with ⟨hb, hall⟩ | ⟨hlt, ⟨i0, hi0, hex⟩, hall⟩
    · refine Or.inl ⟨hb, ?_⟩
      intro j hj r hr
      rcases hj with hj | hj
      · exact hall j hj r hr
      · rcases hl with ⟨hb2, hallQ⟩ | ⟨hlt, _, _⟩
        · exact hallQ j hj r hr
        · rw [hb] at hc2; exact absurd (lt_of_le_of_lt hc2 hlt) (lt_irrefl _)
    · refine Or.inr ⟨hlt, ⟨i0, Or.inl hi0, hex⟩, ?_⟩
      intro j hj r hr
      rcases hj with hj | hj
      · exact hall j hj r hr
      · rcases hl with ⟨hb2, hallQ⟩ | ⟨_, _, hallQ⟩
        · exact le_trans (le_of_lt hlt) (hallQ j hj r hr)
        · exact le_trans hc2 (hallQ j hj r hr)

theorem foldl_combine_inv {tokens : List Int} {merges : MergeTable}
    (shards : List (List Nat)) :
    ∀ {P : Nat → Prop} {g : Best}, best_inv tokens merges P g →
      best_inv tokens merges (fun j => P j ∨ j ∈ shards.flatten)
        (shards.foldl (fun g sh => combine g (local_best tokens merges sh)) g) := by
  induction shards with
  | nil =>
    intro P g h
    exact best_inv_congr (fun j => by simp) h
  | cons sh rest ih =>
    intro P g h
    rw [List.foldl_cons]
    refine best_inv_congr (fun j => ?_) (ih (combine_inv h (local_best_inv tokens merges sh)))
    simp only [List.flatten_cons, List.mem_append]
    tauto

/-- The global best after the parallel region summarises all iterations of a schedule. -/
theorem global_best_inv {shards : List (List Nat)} {m : Nat} (hs : is_schedule shards m)
    (tokens : List Int) (merges : MergeTable) :
    best_inv tokens merges (fun j => j < m)
      (shards.foldl (fun g sh => combine g (local_best tokens merges sh)) best_init) := by
  refine best_inv_congr (fun j => ?_) (foldl_combine_inv shards (best_inv_init tokens merges))
  rw [hs.mem_iff]; simp

theorem find_none_iff {shards : List (List Nat)} {tokens : List Int}
    (hs : is_schedule shards (tokens.length - 1)) (merges : MergeTable) :
    find_best_pair_parallel shards tokens merges = none ↔
      ∀ i, i + 1 < tokens.length → ∀ r, merges.lookup (pair_at tokens i) = some r →
        INT_MAX ≤ r.rank := by
  unfold find_best_pair_parallel
  have h := global_best_inv hs tokens merges
  simp only
  rcases h with ⟨hb, hall⟩ | ⟨hlt, ⟨i0, hi0, r0, hr0, hrk, _⟩, _⟩
  · rw [hb]
    simp only [best_init, if_true, true_iff]
    intro i hi r hr
    exact hall i (by omega) r hr
  · rw [if_neg (ne_of_lt hlt)]
    simp only [false_iff, reduceCtorEq]
    intro hall
    have := hall i0 (by omega) r0 hr0
    rw [hrk] at this
    exact absurd (lt_of_lt_of_le hlt this) (lt_irrefl _)

theorem find_some_spec {shards : List (List Nat)} {tokens : List Int}
    (hs : is_schedule shards (tokens.length - 1)) {merges : MergeTable} {p : Int × Int}
    (h : find_best_pair_parallel shards tokens merges = some p) :
    ∃ i, i + 1 < tokens.length ∧ p = pair_at tokens i ∧
      ∃ r, merges.lookup p = some r ∧ r.rank < INT_MAX ∧
        ∀ j, j + 1 < tokens.length → ∀ r2, merges.lookup (pair_at tokens j) = some r2 →
          r.rank ≤ r2.rank := by
  unfold find_best_pair_parallel at h
  have hinv := global_best_inv hs tokens merges
  simp only at h
  rcases hinv with ⟨hb, _⟩ | ⟨hlt, ⟨i0, hi0, r0, hr0, hrk, hp⟩, hall⟩
  · rw [hb] at h
    simp [best_init] at h
  · rw [if_neg (ne_of_lt hlt)] at h
    cases h
    refine ⟨i0, by omega, hp, r0, by rw [hp]; exact hr0, by rw [hrk]; exact hlt, ?_⟩
    intro j hj r2 hr2
    rw [hrk]
    exact hall j (by omega) r2 hr2

/-! ## Array loops -/

/-- A loop over `0 .. m-1` whose iteration `i` conditionally writes cell `i`. -/
theorem foldl_cond_set {α : Type} (c : Nat → Prop) [DecidablePred c] (v : Nat → α)
    (m : Nat) (a : List α) :
    ((List.range m).foldl (fun a i => if c i then a.set i (v i) else a) a).length = a.length ∧
    ∀ j, ((List.range m).foldl (fun a i => if c i then a.set i (v i) else a) a)[j]? =
      if j < m ∧ c j ∧ j < a.length then some (v j) else a[j]? := by
  induction m with
  | zero => simp
  | succ m ih =>
    rw [List.range_succ, List.foldl_append]
    obtain ⟨hlen, hget⟩ := ih
    simp only [List.foldl_cons, List.foldl_nil]
    by_cases hc : c m
    · rw [if_pos hc]
      refine ⟨by rw [List.length_set, hlen], fun j => ?_⟩
      rw [List.getElem?_set, hlen, hget]
      by_cases hjm : m = j
      · subst hjm
        by_cases hm : m < a.length
        · simp [hc, hm]
        · have : a[m]? = none := List.getElem?_eq_none (by omega)
          simp [hm, this]
      · rw [if_neg hjm]
        by_cases hj : j < m
        · have : j < m + 1 := by omega
          simp [hj, this]
        · have : ¬ j < m + 1 := by omega
          simp [hj, this]
    · rw [if_neg hc]
      refine ⟨hlen, fun j => ?_⟩
      rw [hget]
      by_cases hjm : j = m
      · subst hjm
        simp [hc]
      · by_cases hj : j < m
        · have : j < m + 1 := by omega
          simp [hj, this]
        · have : ¬ j < m + 1 := by omega
          simp [hj, this]

theorem set_append_replicate {α : Type} (pre : List α) (k : Nat) (z v : α) :
    (pre ++ List.replicate (k + 1) z).set pre.length v = pre ++ v :: List.replicate k z := by
  rw [List.set_append]
  simp [List.replicate_succ]

/-! ## Overlap Resolver: the loops compute the sequential walk -/

theorem mark_passA_length (tokens : List Int) (left right : Int) (n : Nat) :
    (mark_passA tokens left right n).length = n := by
  unfold mark_passA
  have h := (foldl_cond_set
    (fun i => tokens.getD i 0 = left ∧ tokens.getD (i + 1) 0 = right) (fun _ => 1)
    (n - 1) (List.replicate n 0)).1
  simpa using h

theorem mark_passA_getD (tokens : List Int) (left right : Int) (n i : Nat) :
    (mark_passA tokens left right n).getD i 0 ≠ 0 ↔
      i + 1 < n ∧ tokens.getD i 0 = left ∧ tokens.getD (i + 1) 0 = right := by
  unfold mark_passA
  have h := (foldl_cond_set
    (fun i => tokens.getD i 0 = left ∧ tokens.getD (i + 1) 0 = right) (fun _ => 1)
    (n - 1) (List.replicate n 0)).2 i
  rw [List.getD_eq_getElem?_getD, h]
  by_cases hi : i + 1 < n
  · have h1 : i < n - 1 := by omega
    have h2 : i < n := by omega
    by_cases hc : tokens.getD i 0 = left ∧ tokens.getD (i + 1) 0 = right
    · rw [if_pos ⟨h1, hc, by simpa using h2⟩]
      simp only [Option.getD_some]
      exact ⟨fun _ => ⟨hi, hc⟩, fun _ => by decide⟩
    · rw [if_neg (fun h => hc h.2.1)]
      rw [List.getElem?_replicate, if_pos h2]
      simp only [Option.getD_some]
      exact ⟨fun h => absurd rfl h, fun h => absurd h.2 hc⟩
  · have h1 : ¬ i < n - 1 := by omega
    simp only [h1, false_and, if_false, hi]
    by_cases h2 : i < n
    · simp [List.getElem?_replicate, h2]
    · simp [List.getElem?_replicate, h2]

theorem tentative_spec_length (left right : Int) (tokens : List Int) :
    (tentative_spec left right tokens).length = tokens.length := by
  simp [tentative_spec]

theorem tentative_spec_getD (left right : Int) (tokens : List Int) (i : Nat) :
    (tentative_spec left right tokens).getD i false = true ↔
      i + 1 < tokens.length ∧ tokens.getD i 0 = left ∧ tokens.getD (i + 1) 0 = right := by
  unfold tentative_spec
  rw [List.getD_eq_getElem?_getD]
  by_cases hi : i < tokens.length
  · simp [List.getElem?_map, List.getElem?_range, hi]
  · have : ¬ i + 1 < tokens.length := by omega
    have hnone : ((List.range tokens.length).map
        (fun i => decide (i + 1 < tokens.length ∧ tokens.getD i 0 = left ∧
          tokens.getD (i + 1) 0 = right)))[i]? = none :=
      List.getElem?_eq_none (by simpa using hi)
    rw [hnone]
    simp [this]

theorem mark_passB_spec (tent : List Nat) (T : List Bool)
    (hT : ∀ i, tent.getD i 0 ≠ 0 ↔ T.getD i false = true) :
    ∀ (fuel i : Nat) (pre : List Nat), pre.length = i → i ≤ T.length → T.length ≤ fuel + i →
      (if (mark_passB tent T.length fuel i (pre ++ List.replicate (T.length - i) 0)).1 < T.length
        then (mark_passB tent T.length fuel i (pre ++ List.replicate (T.length - i) 0)).2.set
          (mark_passB tent T.length fuel i (pre ++ List.replicate (T.length - i) 0)).1 0
        else (mark_passB tent T.length fuel i (pre ++ List.replicate (T.length - i) 0)).2)
      = pre ++ greedy_walk (T.drop i) := by
  intro fuel
  induction fuel with
  | zero =>
    intro i pre hpre hi hfuel
    have hin : i = T.length := by omega
    subst hin
    simp [mark_passB, greedy_walk]
  | succ fuel ih =>
    intro i pre hpre hi hfuel
    unfold mark_passB
    by_cases h1 : i + 1 < T.length
    · rw [if_pos h1]
      have hdrop : T.drop i = T.getD i false :: T.getD (i + 1) false :: T.drop (i + 2) := by
        rw [List.drop_eq_getElem_cons (by omega : i < T.length),
          List.drop_eq_getElem_cons h1]
        rw [List.getD_eq_getElem _ _ (by omega : i < T.length), List.getD_eq_getElem _ _ h1]
      have hrep : T.length - i = (T.length - (i + 1)) + 1 := by omega
      by_cases ht : tent.getD i 0 ≠ 0
      · rw [if_pos ht]
        have hset : (pre ++ List.replicate (T.length - i) 0).set i 1
            = (pre ++ [1, 0]) ++ List.replicate (T.length - (i + 2)) 0 := by
          have hrep2 : T.length - (i + 1) = (T.length - (i + 2)) + 1 := by omega
          rw [hrep, ← hpre, set_append_replicate, hpre, hrep2, List.replicate_succ]
          simp
        rw [hset]
        have := ih (i + 2) (pre ++ [1, 0]) (by simp [hpre]) (by omega) (by omega)
        rw [this, hdrop, (hT i).1 ht]
        simp [greedy_walk]
      · rw [if_neg ht]
        have hset : (pre ++ List.replicate (T.length - i) 0).set i 0
            = (pre ++ [0]) ++ List.replicate (T.length - (i + 1)) 0 := by
          rw [hrep, ← hpre, set_append_replicate, hpre]
          simp
        rw [hset]
        have := ih (i + 1) (pre ++ [0]) (by simp [hpre]) (by omega) (by omega)
        rw [this, hdrop]
        have hf : T.getD i false = false := by
          cases hb : T.getD i false with
          | false => rfl
          | true => exact absurd ((hT i).2 hb) ht
        rw [hf, List.drop_eq_getElem_cons h1, List.getD_eq_getElem _ _ h1]
        simp [greedy_walk]
    · rw [if_neg h1]
      simp only
      by_cases h2 : i < T.length
      · rw [if_pos h2]
        have hrep : T.length - i = 0 + 1 := by omega
        rw [hrep, ← hpre, set_append_replicate]
        have hdrop : T.drop pre.length = [T.getD pre.length false] := by
          rw [hpre, List.drop_eq_getElem_cons h2, List.getD_eq_getElem _ _ h2]
          have : T.drop (i + 1) = [] := List.drop_eq_nil_of_le (by omega)
          rw [this]
        rw [hdrop]
        simp [greedy_walk]
      · rw [if_neg h2]
        have hin : i = T.length := by omega
        subst hin
        simp [greedy_walk]

/-- The Marker computes the sequential leftmost-greedy walk over the tentative array. -/
theorem mark_eq_greedy_walk (tokens : List Int) (left right : Int) :
    mark_merges_parallel tokens (left, right) =
      greedy_walk (tentative_spec left right tokens) := by
  unfold mark_merges_parallel
  simp only
  by_cases hn : tokens.length < 2
  · rw [if_pos hn]
    match tokens, hn with
    | [], _ => rfl
    | [a], _ => simp [tentative_spec, greedy_walk]
  · rw [if_neg hn]
    have hT : ∀ i, (mark_passA tokens left right tokens.length).getD i 0 ≠ 0 ↔
        (tentative_spec left right tokens).getD i false = true := by
      intro i
      rw [mark_passA_getD, tentative_spec_getD]
    have h := mark_passB_spec (mark_passA tokens left right tokens.length)
      (tentative_spec left right tokens) hT tokens.length 0 []
      rfl (Nat.zero_le _) (by rw [tentative_spec_length]; omega)
    rw [tentative_spec_length] at h
    simpa using h

/-! ## Overlap Resolver: properties of the sequential walk -/

theorem greedy_walk_length : ∀ T : List Bool, (greedy_walk T).length = T.length
  | [] => rfl
  | [_] => rfl
  | t :: u :: rest => by
    unfold greedy_walk
    cases t with
    | true =>
      simp only [if_true, List.length_cons]
      rw [greedy_walk_length rest]
    | false =>
      simp only [Bool.false_eq_true, if_false, List.length_cons]
      rw [greedy_walk_length (u :: rest)]
      rfl

/-- The recurrence satisfied by the sequential walk: position `i` is committed exactly when
it is tentative, is not the last position, and its left neighbour is not committed. -/
theorem greedy_walk_getD : ∀ (T : List Bool) (i : Nat),
    (greedy_walk T).getD i 0 = 1 ↔
      i + 1 < T.length ∧ T.getD i false = true ∧
        (i = 0 ∨ (greedy_walk T).getD (i - 1) 0 ≠ 1)
  | [], i => by simp [greedy_walk]
  | [_], i => by
    cases i with
    | zero => simp [greedy_walk]
    | succ j => simp [greedy_walk]
  | t :: u :: rest, i => by
    unfold greedy_walk
    cases t with
    | true =>
      simp only [if_true]
      match i with
      | 0 => simp
      | 1 => simp
      | 2 =>
        have ih := greedy_walk_getD rest 0
        simp only [List.getD_cons_succ, List.length_cons]
        rw [ih]
        simp
        intros; omega
      | j + 3 =>
        have ih := greedy_walk_getD rest (j + 1)
        simp only [List.getD_cons_succ, List.length_cons]
        rw [ih]
        simp
        intros; omega
    | false =>
      simp only [Bool.false_eq_true, if_false]
      match i with
      | 0 => simp
      | 1 =>
        have ih := greedy_walk_getD (u :: rest) 0
        simp only [List.getD_cons_succ, List.length_cons]
        rw [ih]
        simp
      | j + 2 =>
        have ih := greedy_walk_getD (u :: rest) (j + 1)
        simp only [List.getD_cons_succ, List.length_cons]
        rw [ih]
        simp
        intros; omega

theorem greedy_walk_le_one : ∀ (T : List Bool) (i : Nat), (greedy_walk T).getD i 0 ≤ 1
  | [], i => by simp [greedy_walk]
  | [_], i => by
    cases i with
    | zero => simp [greedy_walk]
    | succ j => simp [greedy_walk]
  | t :: u :: rest, i => by
    unfold greedy_walk
    cases t with
    | true =>
      simp only [if_true]
      match i with
      | 0 => simp
      | 1 => simp
      | j + 2 => simpa using greedy_walk_le_one rest j
    | false =>
      simp only [Bool.false_eq_true, if_false]
      match i with
      | 0 => simp
      | j + 1 => simpa using greedy_walk_le_one (u :: rest) j

theorem mark_length (tokens : List Int) (p : Int × Int) :
    (mark_merges_parallel tokens p).length = tokens.length := by
  obtain ⟨left, right⟩ := p
  rw [mark_eq_greedy_walk, greedy_walk_length, tentative_spec_length]

/-- The recurrence of the specification for the result of the Marker. -/
theorem mark_getD (tokens : List Int) (left right : Int) (i : Nat) :
    (mark_merges_parallel tokens (left, right)).getD i 0 = 1 ↔
      i + 1 < tokens.length ∧ tokens.getD i 0 = left ∧ tokens.getD (i + 1) 0 = right ∧
        (i = 0 ∨ (mark_merges_parallel tokens (left, right)).getD (i - 1) 0 ≠ 1) := by
  rw [mark_eq_greedy_walk, greedy_walk_getD, tentative_spec_length, tentative_spec_getD]
  constructor
  · rintro ⟨h1, ⟨_, h2, h3⟩, h4⟩
    exact ⟨h1, h2, h3, h4⟩
  · rintro ⟨h1, h2, h3, h4⟩
    exact ⟨h1, ⟨h1, h2, h3⟩, h4⟩

theorem mark_le_one (tokens : List Int) (p : Int × Int) (i : Nat) :
    (mark_merges_parallel tokens p).getD i 0 ≤ 1 := by
  obtain ⟨left, right⟩ := p
  rw [mark_eq_greedy_walk]
  exact greedy_walk_le_one _ i

theorem mark_no_adjacent (tokens : List Int) (p : Int × Int) (i : Nat)
    (h : (mark_merges_parallel tokens p).getD i 0 = 1) :
    (mark_merges_parallel tokens p).getD (i + 1) 0 ≠ 1 := by
  obtain ⟨left, right⟩ := p
  intro h2
  have := (mark_getD tokens left right (i + 1)).1 h2
  rcases this.2.2.2 with h3 | h3
  · omega
  · exact h3 h

theorem mark_last (tokens : List Int) (p : Int × Int) (i : Nat)
    (h : tokens.length ≤ i + 1) : (mark_merges_parallel tokens p).getD i 0 ≠ 1 := by
  obtain ⟨left, right⟩ := p
  intro h2
  have := (mark_getD tokens left right i).1 h2
  omega

/-! ## Compactor: classification -/

theorem emit_flags_spec (marks : List Nat) (n : Nat) :
    (emit_flags marks n).length = n ∧
    ∀ j, (emit_flags marks n)[j]? = if j < n then some (emit_val marks j) else none := by
  have hbody : (fun (emit : List Nat) (i : Nat) =>
      if marks.getD i 0 = 1 then emit.set i 1
      else if 0 < i ∧ marks.getD (i - 1) 0 = 1 then emit.set i 0
      else emit.set i 1) =
      (fun emit i => if True then emit.set i (emit_val marks i) else emit) := by
    funext emit i
    unfold emit_val
    rw [if_pos trivial]
    split
    · rfl
    · split <;> rfl
  unfold emit_flags
  rw [hbody]
  have h := foldl_cond_set (fun _ => True) (emit_val marks) n (List.replicate n 0)
  refine ⟨by simpa using h.1, fun j => ?_⟩
  rw [h.2 j]
  by_cases hj : j < n
  · simp [hj]
  · rw [if_neg (fun h => hj h.1), if_neg hj]
    exact List.getElem?_eq_none (by simp; omega)

theorem emit_flags_getD (marks : List Nat) (n j : Nat) (hj : j < n) :
    (emit_flags marks n).getD j 0 = emit_val marks j := by
  rw [List.getD_eq_getElem?_getD, (emit_flags_spec marks n).2 j, if_pos hj]
  rfl

/-! ## Compactor: the two-level scan -/

theorem range_sum_zero (emit : List Nat) (start : Nat) : range_sum emit start 0 = 0 := by
  simp [range_sum]

theorem range_sum_succ (emit : List Nat) (start len : Nat) :
    range_sum emit start (len + 1) = range_sum emit start len + emit.getD (start + len) 0 := by
  unfold range_sum
  rw [List.range'_concat]
  simp

theorem range_sum_add (emit : List Nat) (start l1 l2 : Nat) :
    range_sum emit start (l1 + l2) = range_sum emit start l1 + range_sum emit (start + l1) l2 := by
  induction l2 with
  | zero => simp [range_sum_zero]
  | succ l2 ih =>
    rw [← Nat.add_assoc, range_sum_succ, ih, range_sum_succ]
    rw [Nat.add_assoc start l1 l2]
    omega

theorem chunk_bound_zero (n k : Nat) : chunk_bound n k 0 = 0 := by
  simp [chunk_bound]

theorem chunk_bound_mono (n k : Nat) {t1 t2 : Nat} (h : t1 ≤ t2) :
    chunk_bound n k t1 ≤ chunk_bound n k t2 := by
  unfold chunk_bound
  exact Nat.div_le_div_right (Nat.mul_le_mul_left n h)

theorem chunk_bound_last (n : Nat) {k : Nat} (hk : 0 < k) : chunk_bound n k k = n := by
  unfold chunk_bound
  exact Nat.mul_div_cancel n hk

theorem chunk_bound_le (n : Nat) {k t : Nat} (hk : 0 < k) (ht : t ≤ k) :
    chunk_bound n k t ≤ n := by
  have h := chunk_bound_mono n k ht
  rwa [chunk_bound_last n hk] at h

/-- The local running sum of one thread (lines 55-59). -/
theorem chunk_scan_loop (emit : List Nat) (start : Nat) (scan : List Nat) (len : Nat) :
    ((List.range' start len).foldl
      (fun (st : Nat × List Nat) i =>
        (st.1 + emit.getD i 0, st.2.set i (st.1 + emit.getD i 0))) (0, scan)).1
      = range_sum emit start len ∧
    ((List.range' start len).foldl
      (fun (st : Nat × List Nat) i =>
        (st.1 + emit.getD i 0, st.2.set i (st.1 + emit.getD i 0))) (0, scan)).2.length
      = scan.length ∧
    ∀ j, ((List.range' start len).foldl
      (fun (st : Nat × List Nat) i =>
        (st.1 + emit.getD i 0, st.2.set i (st.1 + emit.getD i 0))) (0, scan)).2[j]? =
      if start ≤ j ∧ j < start + len ∧ j < scan.length
      then some (range_sum emit start (j - start + 1)) else scan[j]? := by
  induction len with
  | zero =>
    refine ⟨by simp [range_sum_zero], by simp, fun j => ?_⟩
    have : ¬ (start ≤ j ∧ j < start + 0 ∧ j < scan.length) := by omega
    rw [if_neg this]
    rfl
  | succ len ih =>
    obtain ⟨h1, h2, h3⟩ := ih
    rw [List.range'_concat, List.foldl_append]
    simp only [List.foldl_cons, List.foldl_nil, Nat.one_mul]
    refine ⟨?_, ?_, fun j => ?_⟩
    · rw [h1, range_sum_succ]
    · rw [List.length_set, h2]
    · rw [List.getElem?_set, h2, h3, h1]
      by_cases hj : start + len = j
      · subst hj
        rw [if_pos rfl]
        by_cases hl : start + len < scan.length
        · rw [if_pos hl, if_pos ⟨by omega, by omega, hl⟩]
          have : start + len - start + 1 = len + 1 := by omega
          rw [this, range_sum_succ]
        · rw [if_neg hl, if_neg (fun h => hl h.2.2)]
          exact (List.getElem?_eq_none (by omega)).symm
      · rw [if_neg hj]
        by_cases hc : start ≤ j ∧ j < start + len ∧ j < scan.length
        · rw [if_pos hc, if_pos ⟨hc.1, by omega, hc.2.2⟩]
        · rw [if_neg hc, if_neg (by omega)]

theorem chunk_scan_spec (emit : List Nat) (start stop : Nat) (scan : List Nat) :
    (chunk_scan emit start stop scan).1 = range_sum emit start (stop - start) ∧
    (chunk_scan emit start stop scan).2.length = scan.length ∧
    ∀ j, (chunk_scan emit start stop scan).2[j]? =
      if start ≤ j ∧ j < start + (stop - start) ∧ j < scan.length
      then some (range_sum emit start (j - start + 1)) else scan[j]? :=
  chunk_scan_loop emit start scan (stop - start)

/-- The offset loop of one thread (lines 71-73). -/
theorem add_offset_loop (offset start : Nat) (scan : List Nat) (len : Nat) :
    ((List.range' start len).foldl
      (fun (sc : List Nat) i => sc.set i (sc.getD i 0 + offset)) scan).length = scan.length ∧
    ∀ j, ((List.range' start len).foldl
      (fun (sc : List Nat) i => sc.set i (sc.getD i 0 + offset)) scan)[j]? =
      if start ≤ j ∧ j < start + len then (scan[j]?).map (fun x => x + offset)
      else scan[j]? := by
  induction len with
  | zero =>
    refine ⟨by simp, fun j => ?_⟩
    have : ¬ (start ≤ j ∧ j < start + 0) := by omega
    rw [if_neg this]
    rfl
  | succ len ih =>
    obtain ⟨h1, h2⟩ := ih
    rw [List.range'_concat, List.foldl_append]
    simp only [List.foldl_cons, List.foldl_nil, Nat.one_mul]
    refine ⟨by rw [List.length_set, h1], fun j => ?_⟩
    rw [List.getElem?_set, h1, h2]
    by_cases hj : start + len = j
    · subst hj
      have hout : ¬ (start ≤ start + len ∧ start + len < start + len) := by omega
      have hin : start ≤ start + len ∧ start + len < start + (len + 1) := by omega
      rw [if_pos rfl, List.getD_eq_getElem?_getD, h2, if_neg hout]
      by_cases hl : start + len < scan.length
      · rw [if_pos hl, if_pos hin, List.getElem?_eq_getElem hl]
        simp
      · rw [if_neg hl, if_pos hin, List.getElem?_eq_none (by omega)]
        simp
    · rw [if_neg hj]
      by_cases hc : start ≤ j ∧ j < start + len
      · rw [if_pos hc, if_pos ⟨hc.1, by omega⟩]
      · rw [if_neg hc, if_neg (by omega)]

theorem add_offset_spec (offset start stop : Nat) (scan : List Nat) :
    (add_offset offset start stop scan).length = scan.length ∧
    ∀ j, (add_offset offset start stop scan)[j]? =
      if start ≤ j ∧ j < start + (stop - start) then (scan[j]?).map (fun x => x + offset)
      else scan[j]? :=
  add_offset_loop offset start scan (stop - start)

/-- State of the scan region at the barrier, after the first `t` threads of a team of
`nthr` have run their local loops. -/
theorem scan_local_loop (emit : List Nat) (n nthr : Nat) (hk : 0 < nthr) (t : Nat)
    (ht : t ≤ nthr) :
    let st := (List.range t).foldl
      (fun (st : List Nat × List Nat) tid =>
        ((chunk_scan emit (chunk_bound n nthr tid) (chunk_bound n nthr (tid + 1)) st.1).2,
          st.2.set tid
            (chunk_scan emit (chunk_bound n nthr tid) (chunk_bound n nthr (tid + 1)) st.1).1))
      (List.replicate n 0, List.replicate nthr 0)
    st.1.length = n ∧ st.2.length = nthr ∧
    (∀ t2, t2 < t → st.2[t2]? = some (range_sum emit (chunk_bound n nthr t2)
      (chunk_bound n nthr (t2 + 1) - chunk_bound n nthr t2))) ∧
    (∀ t2, t2 < t → ∀ j, chunk_bound n nthr t2 ≤ j → j < chunk_bound n nthr (t2 + 1) →
      st.1[j]? = some (range_sum emit (chunk_bound n nthr t2)
        (j - chunk_bound n nthr t2 + 1))) := by
  induction t with
  | zero =>
    refine ⟨by simp, by simp, fun t2 h => absurd h (Nat.not_lt_zero _),
      fun t2 h => absurd h (Nat.not_lt_zero _)⟩
  | succ t ih =>
    obtain ⟨h1, h2, h3, h4⟩ := ih (by omega)
    rw [List.range_succ, List.foldl_append]
    simp only [List.foldl_cons, List.foldl_nil]
    have hcs := chunk_scan_spec emit (chunk_bound n nthr t) (chunk_bound n nthr (t + 1))
      ((List.range t).foldl
      (fun (st : List Nat × List Nat) tid =>
        ((chunk_scan emit (chunk_bound n nthr tid) (chunk_bound n nthr (tid + 1)) st.1).2,
          st.2.set tid
            (chunk_scan emit (chunk_bound n nthr tid) (chunk_bound n nthr (tid + 1)) st.1).1))
      (List.replicate n 0, List.replicate nthr 0)).1
    obtain ⟨c1, c2, c3⟩ := hcs
    have hmono : chunk_bound n nthr t ≤ chunk_bound n nthr (t + 1) :=
      chunk_bound_mono n nthr (Nat.le_succ t)
    have hle : chunk_bound n nthr (t + 1) ≤ n := chunk_bound_le n hk ht
    refine ⟨by rw [c2, h1], by rw [List.length_set, h2], ?_, ?_⟩
    · intro t2 ht2
      rw [List.getElem?_set, h2]
      by_cases he : t = t2
      · subst he
        rw [if_pos rfl, if_pos (by omega), c1]
      · rw [if_neg he]
        exact h3 t2 (by omega)
    · intro t2 ht2 j hj1 hj2
      rw [c3 j, h1]
      by_cases he : t2 = t
      · subst he
        rw [if_pos ⟨hj1, by omega, by omega⟩]
      · have hlt : t2 < t := by omega
        have hb : chunk_bound n nthr (t2 + 1) ≤ chunk_bound n nthr t :=
          chunk_bound_mono n nthr (by omega)
        rw [if_neg (by omega)]
        exact h4 t2 hlt j hj1 hj2

theorem scan_local_spec (emit : List Nat) (n nthr : Nat) (hk : 0 < nthr) :
    (scan_local emit n nthr).1.length = n ∧ (scan_local emit n nthr).2.length = nthr ∧
    (∀ t2, t2 < nthr → (scan_local emit n nthr).2[t2]? =
      some (range_sum emit (chunk_bound n nthr t2)
        (chunk_bound n nthr (t2 + 1) - chunk_bound n nthr t2))) ∧
    (∀ t2, t2 < nthr → ∀ j, chunk_bound n nthr t2 ≤ j → j < chunk_bound n nthr (t2 + 1) →
      (scan_local emit n nthr).1[j]? = some (range_sum emit (chunk_bound n nthr t2)
        (j - chunk_bound n nthr t2 + 1))) :=
  scan_local_loop emit n nthr hk nthr (le_refl _)

/-- The offset of thread `t` is the sum of everything before its chunk. -/
theorem chunk_offset_spec (emit : List Nat) (n nthr : Nat) (hk : 0 < nthr) (t : Nat)
    (ht : t ≤ nthr) :
    chunk_offset (scan_local emit n nthr).2 t = range_sum emit 0 (chunk_bound n nthr t) := by
  unfold chunk_offset
  induction t with
  | zero => simp [chunk_bound_zero, range_sum_zero]
  | succ t ih =>
    rw [List.range_succ, List.foldl_append]
    simp only [List.foldl_cons, List.foldl_nil]
    rw [ih (by omega), List.getD_eq_getElem?_getD,
      (scan_local_spec emit n nthr hk).2.2.1 t (by omega)]
    simp only [Option.getD_some]
    have hmono : chunk_bound n nthr t ≤ chunk_bound n nthr (t + 1) :=
      chunk_bound_mono n nthr (Nat.le_succ t)
    have h := range_sum_add emit 0 (chunk_bound n nthr t)
      (chunk_bound n nthr (t + 1) - chunk_bound n nthr t)
    rw [Nat.zero_add] at h
    rw [← h]
    congr 1
    omega

/-- State of the scan array after the first `t` threads have added their offsets. -/
theorem scan_two_level_loop (emit : List Nat) (n nthr : Nat) (hk : 0 < nthr) (t : Nat)
    (ht : t ≤ nthr) :
    let sc := (List.range t).foldl
      (fun (sc : List Nat) tid =>
        if chunk_offset (scan_local emit n nthr).2 tid ≠ 0 then
          add_offset (chunk_offset (scan_local emit n nthr).2 tid) (chunk_bound n nthr tid)
            (chunk_bound n nthr (tid + 1)) sc
        else sc)
      (scan_local emit n nthr).1
    sc.length = n ∧
    (∀ j, j < chunk_bound n nthr t → sc[j]? = some (range_sum emit 0 (j + 1))) ∧
    (∀ j, chunk_bound n nthr t ≤ j → sc[j]? = (scan_local emit n nthr).1[j]?) := by
  induction t with
  | zero =>
    refine ⟨by simpa using (scan_local_spec emit n nthr hk).1, fun j hj => ?_, fun j _ => rfl⟩
    rw [chunk_bound_zero] at hj
    exact absurd hj (Nat.not_lt_zero _)
  | succ t ih =>
    obtain ⟨h1, h2, h3⟩ := ih (by omega)
    rw [List.range_succ, List.foldl_append]
    simp only [List.foldl_cons, List.foldl_nil]
    have hmono : chunk_bound n nthr t ≤ chunk_bound n nthr (t + 1) :=
      chunk_bound_mono n nthr (Nat.le_succ t)
    have hoff := chunk_offset_spec emit n nthr hk t (by omega)
    have hloc := (scan_local_spec emit n nthr hk).2.2.2 t (by omega)
    have hsum : ∀ j, chunk_bound n nthr t ≤ j →
        range_sum emit 0 (j + 1) = range_sum emit 0 (chunk_bound n nthr t) +
          range_sum emit (chunk_bound n nthr t) (j - chunk_bound n nthr t + 1) := by
      intro j hj
      have h := range_sum_add emit 0 (chunk_bound n nthr t) (j - chunk_bound n nthr t + 1)
      rw [Nat.zero_add] at h
      rw [← h]
      congr 1
      omega
    by_cases ho : chunk_offset (scan_local emit n nthr).2 t ≠ 0
    · rw [if_pos ho]
      obtain ⟨a1, a2⟩ := add_offset_spec (chunk_offset (scan_local emit n nthr).2 t)
        (chunk_bound n nthr t) (chunk_bound n nthr (t + 1))
        ((List.range t).foldl
          (fun (sc : List Nat) tid =>
            if chunk_offset (scan_local emit n nthr).2 tid ≠ 0 then
              add_offset (chunk_offset (scan_local emit n nthr).2 tid) (chunk_bound n nthr tid)
                (chunk_bound n nthr (tid + 1)) sc
            else sc)
          (scan_local emit n nthr).1)
      refine ⟨by rw [a1, h1], fun j hj => ?_, fun j hj => ?_⟩
      · rw [a2 j]
        by_cases hc : chunk_bound n nthr t ≤ j
        · rw [if_pos ⟨hc, by omega⟩, h3 j hc, hloc j hc hj, hoff, hsum j hc]
          simp [Nat.add_comm]
        · rw [if_neg (fun h => hc h.1)]
          exact h2 j (by omega)
      · rw [a2 j, if_neg (by omega)]
        exact h3 j (by omega)
    · rw [if_neg ho]
      have ho0 : chunk_offset (scan_local emit n nthr).2 t = 0 := by
        by_contra h
        exact ho h
      refine ⟨h1, fun j hj => ?_, fun j hj => h3 j (by omega)⟩
      by_cases hc : chunk_bound n nthr t ≤ j
      · rw [h3 j hc, hloc j hc hj, hsum j hc, ← hoff, ho0, Nat.zero_add]
      · exact h2 j (by omega)

/-- The two-level scan computes every inclusive running sum. -/
theorem scan_two_level_spec (emit : List Nat) (n nthr : Nat) (hk : 0 < nthr) :
    (scan_two_level emit n nthr).length = n ∧
    ∀ j, j < n → (scan_two_level emit n nthr)[j]? = some (range_sum emit 0 (j + 1)) := by
  have h := scan_two_level_loop emit n nthr hk nthr (le_refl _)
  rw [chunk_bound_last n hk] at h
  exact ⟨h.1, h.2.1⟩

theorem scan_two_level_getD (emit : List Nat) (n nthr : Nat) (hk : 0 < nthr) (j : Nat)
    (hj : j < n) : (scan_two_level emit n nthr).getD j 0 = range_sum emit 0 (j + 1) := by
  rw [List.getD_eq_getElem?_getD, (scan_two_level_spec emit n nthr hk).2 j hj]
  rfl

theorem range_sum_cons (x : Nat) (xs : List Nat) (start len : Nat) :
    range_sum (x :: xs) (start + 1) len = range_sum xs start len := by
  induction len with
  | zero => simp [range_sum_zero]
  | succ len ih =>
    rw [range_sum_succ, range_sum_succ, ih]
    have : start + 1 + len = (start + len) + 1 := by omega
    rw [this, List.getD_cons_succ]

theorem range_sum_head (x : Nat) (xs : List Nat) (len : Nat) :
    range_sum (x :: xs) 0 (len + 1) = x + range_sum xs 0 len := by
  have h := range_sum_add (x :: xs) 0 1 len
  rw [Nat.add_comm 1 len] at h
  rw [h, Nat.zero_add, range_sum_cons]
  simp [range_sum]

theorem range_sum_eq_take (emit : List Nat) (a : Nat) :
    range_sum emit 0 a = (emit.take a).sum := by
  induction a with
  | zero => simp [range_sum_zero]
  | succ a ih =>
    rw [range_sum_succ, ih, List.take_succ, List.sum_append, Nat.zero_add,
      List.getD_eq_getElem?_getD]
    cases emit[a]? <;> simp

theorem inclusive_scan_from_spec : ∀ (xs : List Nat) (acc : Nat),
    (inclusive_scan_from acc xs).length = xs.length ∧
    ∀ j, j < xs.length →
      (inclusive_scan_from acc xs)[j]? = some (acc + range_sum xs 0 (j + 1))
  | [], acc => ⟨rfl, fun j hj => absurd hj (Nat.not_lt_zero _)⟩
  | x :: xs, acc => by
    obtain ⟨h1, h2⟩ := inclusive_scan_from_spec xs (acc + x)
    unfold inclusive_scan_from
    refine ⟨by simp [h1], fun j hj => ?_⟩
    cases j with
    | zero => simp [range_sum]
    | succ j =>
      rw [List.getElem?_cons_succ, h2 j (by simpa using hj), range_sum_head]
      simp [Nat.add_assoc]

/-- The two-level scan is the single-threaded inclusive scan, for every team size. -/
theorem scan_two_level_eq_inclusive (emit : List Nat) (nthr : Nat) (hk : 0 < nthr) :
    scan_two_level emit emit.length nthr = inclusive_scan emit := by
  apply List.ext_getElem?
  intro j
  obtain ⟨h1, h2⟩ := scan_two_level_spec emit emit.length nthr hk
  obtain ⟨g1, g2⟩ := inclusive_scan_from_spec emit 0
  unfold inclusive_scan
  by_cases hj : j < emit.length
  · rw [h2 j hj, g2 j hj, Nat.zero_add]
  · rw [List.getElem?_eq_none (by omega), List.getElem?_eq_none (by omega)]

/-! ## Compactor: scatter -/

theorem emit_val_cases (marks : List Nat) (i : Nat) :
    emit_val marks i = 0 ∨ emit_val marks i = 1 := by
  unfold emit_val
  split
  · exact Or.inr rfl
  · split
    · exact Or.inl rfl
    · exact Or.inr rfl

theorem emit_val_eq_zero_iff (marks : List Nat) (i : Nat) :
    emit_val marks i = 0 ↔ marks.getD i 0 ≠ 1 ∧ 0 < i ∧ marks.getD (i - 1) 0 = 1 := by
  unfold emit_val
  split
  · rename_i h
    exact ⟨fun hc => absurd hc one_ne_zero, fun hc => absurd h hc.1⟩
  · rename_i h
    split
    · rename_i h2
      exact ⟨fun _ => ⟨h, h2⟩, fun _ => rfl⟩
    · rename_i h2
      exact ⟨fun hc => absurd hc one_ne_zero, fun hc => absurd hc.2 h2⟩

theorem compacted_succ (tokens : List Int) (marks : List Nat) (new_token_id : Int) (j : Nat) :
    compacted tokens marks new_token_id (j + 1) =
      if emit_val marks j = 0 then compacted tokens marks new_token_id j
      else compacted tokens marks new_token_id j ++ [out_val tokens marks new_token_id j] := by
  unfold compacted
  rw [List.range_succ, List.filterMap_append]
  by_cases h : emit_val marks j = 0
  · simp [h]
  · simp [h]

theorem range_sum_emit_succ (marks : List Nat) (n j : Nat) (hj : j < n) :
    range_sum (emit_flags marks n) 0 (j + 1) =
      range_sum (emit_flags marks n) 0 j + emit_val marks j := by
  rw [range_sum_succ, Nat.zero_add, emit_flags_getD marks n j hj]

theorem compacted_length (tokens : List Int) (marks : List Nat) (new_token_id : Int)
    (n j : Nat) (hj : j ≤ n) :
    (compacted tokens marks new_token_id j).length = range_sum (emit_flags marks n) 0 j := by
  induction j with
  | zero => simp [compacted, range_sum_zero]
  | succ j ih =>
    rw [compacted_succ, range_sum_emit_succ marks n j (by omega)]
    rcases emit_val_cases marks j with h | h
    · rw [if_pos h, h, ih (by omega)]
      rfl
    · rw [if_neg (by omega), h, List.length_append, ih (by omega)]
      rfl

theorem range_sum_mono (emit : List Nat) (a b : Nat) (h : a ≤ b) :
    range_sum emit 0 a ≤ range_sum emit 0 b := by
  have h2 := range_sum_add emit 0 a (b - a)
  have h3 : a + (b - a) = b := by omega
  rw [h3] at h2
  omega

/-- State of the output buffer after the first `j` iterations of the scatter loop. -/
theorem scatter_loop (tokens : List Int) (marks : List Nat) (new_token_id : Int)
    (nthr : Nat) (hk : 0 < nthr) (n j : Nat) (hj : j ≤ n) :
    (List.range j).foldl
      (fun (out : List Int) i =>
        if (emit_flags marks n).getD i 0 = 0 then out
        else
          if marks.getD i 0 = 1 then
            out.set ((scan_two_level (emit_flags marks n) n nthr).getD i 0 - 1) new_token_id
          else if ¬ (0 < i ∧ marks.getD (i - 1) 0 = 1) then
            out.set ((scan_two_level (emit_flags marks n) n nthr).getD i 0 - 1)
              (tokens.getD i 0)
          else out)
      (List.replicate (range_sum (emit_flags marks n) 0 n) 0)
    = compacted tokens marks new_token_id j ++
        List.replicate (range_sum (emit_flags marks n) 0 n -
          range_sum (emit_flags marks n) 0 j) 0 := by
  induction j with
  | zero => simp [compacted, range_sum_zero]
  | succ j ih =>
    rw [List.range_succ, List.foldl_append, ih (by omega)]
    simp only [List.foldl_cons, List.foldl_nil]
    have hjn : j < n := by omega
    rw [emit_flags_getD marks n j hjn, scan_two_level_getD _ n nthr hk j hjn,
      compacted_succ, range_sum_emit_succ marks n j hjn]
    have hmono := range_sum_mono (emit_flags marks n) (j + 1) n (by omega)
    rw [range_sum_emit_succ marks n j hjn] at hmono
    have hlen := compacted_length tokens marks new_token_id n j (by omega)
    rcases emit_val_cases marks j with h | h
    · rw [if_pos h, if_pos h, h]
      rfl
    · have hne : ¬ emit_val marks j = 0 := by omega
      rw [if_neg hne, if_neg hne, h]
      rw [h] at hmono
      have hpos : range_sum (emit_flags marks n) 0 j + 1 - 1 =
          (compacted tokens marks new_token_id j).length := by
        rw [hlen]; rfl
      have hrep : range_sum (emit_flags marks n) 0 n - range_sum (emit_flags marks n) 0 j =
          (range_sum (emit_flags marks n) 0 n - (range_sum (emit_flags marks n) 0 j + 1)) + 1 := by
        omega
      rw [hpos, hrep, set_append_replicate, set_append_replicate]
      unfold out_val
      by_cases hm : marks.getD j 0 = 1
      · rw [if_pos hm, if_pos hm]
        simp
      · rw [if_neg hm, if_neg hm]
        have h0 : ¬ (0 < j ∧ marks.getD (j - 1) 0 = 1) := by
          intro hc
          have := (emit_val_eq_zero_iff marks j).2 ⟨hm, hc⟩
          omega
        rw [if_pos h0]
        simp

/-- The Compactor returns the stream compaction of the whole sequence. -/
theorem apply_eq_compacted (nthr : Nat) (hk : 0 < nthr) (tokens : List Int)
    (marks : List Nat) (new_token_id : Int) :
    apply_merges_parallel nthr tokens marks new_token_id =
      compacted tokens marks new_token_id tokens.length := by
  unfold apply_merges_parallel
  simp only
  by_cases hn : tokens.length = 0
  · rw [if_pos hn, hn]
    rfl
  · rw [if_neg hn]
    unfold scatter
    rw [scan_two_level_getD _ _ nthr hk (tokens.length - 1) (by omega)]
    have h1 : tokens.length - 1 + 1 = tokens.length := by omega
    rw [h1]
    have h := scatter_loop tokens marks new_token_id nthr hk tokens.length tokens.length
      (le_refl _)
    rw [Nat.sub_self] at h
    simpa using h

/-! ## One merge round is the sequential rewrite -/

theorem tentative_spec_cons (left right a : Int) (ts : List Int) :
    tentative_spec left right (a :: ts) =
      decide (0 < ts.length ∧ a = left ∧ ts.getD 0 0 = right) :: tentative_spec left right ts := by
  unfold tentative_spec
  rw [List.length_cons, List.range_succ_eq_map, List.map_cons, List.map_map]
  congr 1
  · simp
  · apply List.map_congr_left
    intro i _
    simp only [Function.comp, Nat.succ_eq_add_one, List.getD_cons_succ]
    have : i + 1 + 1 < ts.length + 1 ↔ i + 1 < ts.length := by omega
    simp only [this]

theorem mark_nil (p : Int × Int) : mark_merges_parallel [] p = [] := rfl

theorem mark_singleton (a : Int) (p : Int × Int) : mark_merges_parallel [a] p = [0] := rfl

theorem greedy_walk_commit (u : Bool) (rest : List Bool) :
    greedy_walk (true :: u :: rest) = 1 :: 0 :: greedy_walk rest := by
  simp [greedy_walk]

theorem greedy_walk_skip (u : Bool) (rest : List Bool) :
    greedy_walk (false :: u :: rest) = 0 :: greedy_walk (u :: rest) := by
  simp [greedy_walk]

theorem mark_cons_cons (left right a b : Int) (rest : List Int) :
    mark_merges_parallel (a :: b :: rest) (left, right) =
      if a = left ∧ b = right then 1 :: 0 :: mark_merges_parallel rest (left, right)
      else 0 :: mark_merges_parallel (b :: rest) (left, right) := by
  rw [mark_eq_greedy_walk, mark_eq_greedy_walk, mark_eq_greedy_walk,
    tentative_spec_cons left right a (b :: rest)]
  by_cases h : a = left ∧ b = right
  · rw [if_pos h]
    have : decide (0 < (b :: rest).length ∧ a = left ∧ (b :: rest).getD 0 0 = right) = true := by
      simp only [List.length_cons, List.getD_cons_zero, decide_eq_true_eq]
      exact ⟨by omega, h⟩
    rw [this, tentative_spec_cons left right b rest, greedy_walk_commit]
  · rw [if_neg h]
    have : decide (0 < (b :: rest).length ∧ a = left ∧ (b :: rest).getD 0 0 = right) = false := by
      simp only [List.length_cons, List.getD_cons_zero, decide_eq_false_iff_not]
      exact fun hc => h hc.2
    rw [this]
    rw [tentative_spec_cons left right b rest, greedy_walk_skip]

theorem emit_val_shift_one (ms : List Nat) (i : Nat) :
    emit_val (0 :: ms) (i + 1) = emit_val ms i := by
  unfold emit_val
  rw [List.getD_cons_succ]
  cases i with
  | zero => simp
  | succ i => simp

theorem out_val_shift_one (a : Int) (ts : List Int) (m0 : Nat) (ms : List Nat) (m : Int)
    (i : Nat) : out_val (a :: ts) (m0 :: ms) m (i + 1) = out_val ts ms m i := by
  unfold out_val
  rw [List.getD_cons_succ, List.getD_cons_succ]

theorem emit_val_shift_two (ms : List Nat) (i : Nat) :
    emit_val (1 :: 0 :: ms) (i + 2) = emit_val ms i := by
  unfold emit_val
  rw [List.getD_cons_succ, List.getD_cons_succ]
  cases i with
  | zero => simp
  | succ i => simp

theorem compacted_cons_unmarked (a : Int) (ts : List Int) (ms : List Nat) (m : Int)
    (k : Nat) :
    compacted (a :: ts) (0 :: ms) m (k + 1) = a :: compacted ts ms m k := by
  unfold compacted
  rw [List.range_succ_eq_map, List.filterMap_cons, List.filterMap_map]
  have h0 : emit_val (0 :: ms) 0 = 1 := by simp [emit_val]
  have hv : out_val (a :: ts) (0 :: ms) m 0 = a := by simp [out_val]
  simp only [h0, hv, one_ne_zero, if_false]
  congr 1
  apply List.filterMap_congr
  intro i _
  simp only [Function.comp, Nat.succ_eq_add_one, emit_val_shift_one, out_val_shift_one]

theorem compacted_cons_marked (a b : Int) (ts : List Int) (ms : List Nat) (m : Int)
    (k : Nat) :
    compacted (a :: b :: ts) (1 :: 0 :: ms) m (k + 2) = m :: compacted ts ms m k := by
  unfold compacted
  rw [List.range_succ_eq_map, List.filterMap_cons, List.filterMap_map,
    List.range_succ_eq_map, List.filterMap_cons, List.filterMap_map]
  have h0 : emit_val (1 :: 0 :: ms) 0 = 1 := by simp [emit_val]
  have h1 : emit_val (1 :: 0 :: ms) 1 = 0 := by simp [emit_val]
  have hv : out_val (a :: b :: ts) (1 :: 0 :: ms) m 0 = m := by simp [out_val]
  simp only [Function.comp, Nat.succ_eq_add_one, Nat.zero_add, h0, h1, hv, one_ne_zero,
    if_false, if_true]
  congr 1
  apply List.filterMap_congr
  intro i _
  have e1 : emit_val (1 :: 0 :: ms) (i + 1 + 1) = emit_val ms i := emit_val_shift_two ms i
  have e2 : out_val (a :: b :: ts) (1 :: 0 :: ms) m (i + 1 + 1) = out_val ts ms m i := by
    rw [out_val_shift_one, out_val_shift_one]
  show (if emit_val (1 :: 0 :: ms) (i + 1 + 1) = 0 then none
    else some (out_val (a :: b :: ts) (1 :: 0 :: ms) m (i + 1 + 1))) = _
  rw [e1, e2]

/-- Compacting with the marks of the Marker is the merge pass of the specification. -/
theorem compacted_mark_eq_merge_pass (left right m : Int) : ∀ tokens : List Int,
    compacted tokens (mark_merges_parallel tokens (left, right)) m tokens.length =
      merge_pass left right m tokens
  | [] => rfl
  | [a] => by
    rw [mark_singleton]
    exact compacted_cons_unmarked a [] [] m 0
  | a :: b :: rest => by
    rw [mark_cons_cons]
    unfold merge_pass
    by_cases h : a = left ∧ b = right
    · rw [if_pos h, if_pos h]
      have := compacted_cons_marked a b rest (mark_merges_parallel rest (left, right)) m
        rest.length
      rw [List.length_cons, List.length_cons, this,
        compacted_mark_eq_merge_pass left right m rest]
    · rw [if_neg h, if_neg h]
      have := compacted_cons_unmarked a (b :: rest)
        (mark_merges_parallel (b :: rest) (left, right)) m (b :: rest).length
      rw [List.length_cons, this, compacted_mark_eq_merge_pass left right m (b :: rest)]

theorem round_eq_merge_pass (nthr : Nat) (hk : 0 < nthr) (tokens : List Int)
    (left right m : Int) :
    apply_merges_parallel nthr tokens (mark_merges_parallel tokens (left, right)) m =
      merge_pass left right m tokens := by
  rw [apply_eq_compacted nthr hk, compacted_mark_eq_merge_pass]

/-! ## Length of a merge round -/

theorem occurs_tail {left right a b : Int} {rest : List Int}
    (h : occurs left right (a :: b :: rest)) (h0 : ¬ (a = left ∧ b = right)) :
    occurs left right (b :: rest) := by
  obtain ⟨i, hi, h1, h2⟩ := h
  cases i with
  | zero => exact absurd ⟨h1, h2⟩ h0
  | succ i =>
    refine ⟨i, ?_, ?_, ?_⟩
    · simp only [List.length_cons] at hi ⊢
      omega
    · simpa using h1
    · simpa using h2

theorem merge_pass_length_le (left right m : Int) : ∀ tokens : List Int,
    (merge_pass left right m tokens).length ≤ tokens.length
  | [] => le_refl _
  | [_] => le_refl _
  | a :: b :: rest => by
    unfold merge_pass
    by_cases h : a = left ∧ b = right
    · rw [if_pos h]
      have := merge_pass_length_le left right m rest
      simp only [List.length_cons]
      omega
    · rw [if_neg h]
      have := merge_pass_length_le left right m (b :: rest)
      simp only [List.length_cons] at this ⊢
      omega

theorem merge_pass_length_lt (left right m : Int) : ∀ tokens : List Int,
    occurs left right tokens → (merge_pass left right m tokens).length < tokens.length
  | [], h => by
    obtain ⟨i, hi, _⟩ := h
    exact absurd hi (Nat.not_lt_zero _)
  | [_], h => by
    obtain ⟨i, hi, _⟩ := h
    simp only [List.length_cons, List.length_nil] at hi
    omega
  | a :: b :: rest, h => by
    unfold merge_pass
    by_cases h0 : a = left ∧ b = right
    · rw [if_pos h0]
      have := merge_pass_length_le left right m rest
      simp only [List.length_cons]
      omega
    · rw [if_neg h0]
      have := merge_pass_length_lt left right m (b :: rest) (occurs_tail h h0)
      simp only [List.length_cons] at this ⊢
      omega

theorem merge_pass_ne_nil (left right m : Int) : ∀ tokens : List Int,
    tokens ≠ [] → merge_pass left right m tokens ≠ []
  | [], h => absurd rfl h
  | [_], _ => by simp [merge_pass]
  | a :: b :: rest, _ => by
    unfold merge_pass
    by_cases h0 : a = left ∧ b = right
    · rw [if_pos h0]; exact List.cons_ne_nil _ _
    · rw [if_neg h0]; exact List.cons_ne_nil _ _

/-- Every committed merge removes exactly one element. -/
theorem merge_pass_length_add_marks (left right m : Int) : ∀ tokens : List Int,
    (merge_pass left right m tokens).length +
      count_marks (mark_merges_parallel tokens (left, right)) = tokens.length
  | [] => rfl
  | [_] => rfl
  | a :: b :: rest => by
    rw [mark_cons_cons]
    unfold merge_pass
    by_cases h0 : a = left ∧ b = right
    · rw [if_pos h0, if_pos h0]
      have := merge_pass_length_add_marks left right m rest
      unfold count_marks at this ⊢
      have hc : List.count 1 (1 :: 0 :: mark_merges_parallel rest (left, right)) =
          List.count 1 (mark_merges_parallel rest (left, right)) + 1 := by
        simp
      rw [hc]
      simp only [List.length_cons]
      omega
    · rw [if_neg h0, if_neg h0]
      have := merge_pass_length_add_marks left right m (b :: rest)
      unfold count_marks at this ⊢
      have hc : List.count 1 (0 :: mark_merges_parallel (b :: rest) (left, right)) =
          List.count 1 (mark_merges_parallel (b :: rest) (left, right)) := by
        simp
      rw [hc]
      simp only [List.length_cons] at this ⊢
      omega

theorem occurs_of_pair_at {tokens : List Int} {i : Nat} (hi : i + 1 < tokens.length) :
    occurs (pair_at tokens i).1 (pair_at tokens i).2 tokens :=
  ⟨i, hi, rfl, rfl⟩

/-! ## The block schedule is a schedule -/

theorem static_shards_flatten (k m t : Nat) :
    ((List.range t).map
      (fun t => List.range' (chunk_bound m k t)
        (chunk_bound m k (t + 1) - chunk_bound m k t))).flatten
      = List.range (chunk_bound m k t) := by
  induction t with
  | zero => simp [chunk_bound_zero]
  | succ t ih =>
    rw [List.range_succ, List.map_append, List.flatten_append, ih]
    have hmono : chunk_bound m k t ≤ chunk_bound m k (t + 1) :=
      chunk_bound_mono m k (Nat.le_succ t)
    simp only [List.map_cons, List.map_nil, List.flatten_cons, List.flatten_nil,
      List.append_nil]
    rw [List.range_eq_range', List.range_eq_range']
    have h := List.range'_append 0 (chunk_bound m k t)
      (chunk_bound m k (t + 1) - chunk_bound m k t) 1
    simp only [Nat.one_mul, Nat.zero_add] at h
    rw [h]
    congr 1
    omega

theorem static_shards_schedule {k : Nat} (hk : 0 < k) (m : Nat) :
    is_schedule (static_shards k m) m := by
  unfold is_schedule static_shards
  rw [static_shards_flatten, chunk_bound_last m hk]

theorem omp_static_valid {k : Nat} (hk : 0 < k) : (omp_static k).valid :=
  ⟨fun _ m => static_shards_schedule hk m, fun _ => hk⟩

theorem omp_static_rev_valid {k : Nat} (hk : 0 < k) : (omp_static_rev k).valid :=
  ⟨fun _ m => ((List.reverse_perm (static_shards k m)).flatten).trans
    (static_shards_schedule hk m), fun _ => hk⟩

/-! ## Encode loop -/

theorem find_none_iff_no_candidate {shards : List (List Nat)} {tokens : List Int}
    (hs : is_schedule shards (tokens.length - 1)) (merges : MergeTable) :
    find_best_pair_parallel shards tokens merges = none ↔ no_candidate merges tokens :=
  find_none_iff hs merges

/-- One round of the loop in which the Pair Finder returned `p`: the lookup succeeds and
the round is the merge pass of the specification for `p`. -/
theorem round_spec {rt : OmpRuntime} (hrt : rt.valid) {merges : MergeTable}
    {tokens : List Int} {round : Nat} {p : Int × Int}
    (h : find_best_pair_parallel (rt.shards round (tokens.length - 1)) tokens merges = some p) :
    ∃ rule, merges.lookup p = some rule ∧
      apply_merges_parallel (rt.nthr round) tokens (mark_merges_parallel tokens p)
        rule.new_token_id = merge_pass p.1 p.2 rule.new_token_id tokens ∧
      occurs p.1 p.2 tokens := by
  obtain ⟨i, hi, hp, r, hr, _, _⟩ := find_some_spec (hrt.1 round _) h
  refine ⟨r, hr, ?_, ?_⟩
  · exact round_eq_merge_pass (rt.nthr round) (hrt.2 round) tokens p.1 p.2 r.new_token_id
  · rw [hp]
    exact occurs_of_pair_at hi

/-- The loop terminates on every non-empty sequence, whatever fuel at least the length of
the sequence it is given, in a state where the Pair Finder finds nothing. -/
theorem encode_loop_spec {rt : OmpRuntime} (hrt : rt.valid) (merges : MergeTable) :
    ∀ (n : Nat) (tokens : List Int), tokens.length ≤ n → tokens ≠ [] →
      ∀ round merged, ∃ out rounds merged2,
        (∀ fuel, tokens.length ≤ fuel →
          encode_loop rt merges fuel round merged tokens = Outcome.done out rounds merged2) ∧
        out ≠ [] ∧ no_candidate merges out ∧
        rounds + out.length ≤ round + tokens.length ∧ round ≤ rounds ∧
        merged2 + out.length = merged + tokens.length := by
  intro n
  induction n with
  | zero =>
    intro tokens hlen hne
    have : tokens = [] := List.length_eq_zero.mp (Nat.le_zero.mp hlen)
    exact absurd this hne
  | succ n ih =>
    intro tokens hlen hne round merged
    have hpos : 0 < tokens.length := List.length_pos.mpr hne
    cases hf : find_best_pair_parallel (rt.shards round (tokens.length - 1)) tokens merges with
    | none =>
      refine ⟨tokens, round, merged, ?_, hne,
        (find_none_iff_no_candidate (hrt.1 round _) merges).1 hf, le_refl _, le_refl _, rfl⟩
      intro fuel hfuel
      obtain ⟨f, rfl⟩ : ∃ f, fuel = f + 1 := ⟨fuel - 1, by omega⟩
      simp only [encode_loop, hf]
    | some p =>
      obtain ⟨rule, hrule, happly, hocc⟩ := round_spec hrt hf
      have hlt := merge_pass_length_lt p.1 p.2 rule.new_token_id tokens hocc
      have hnn := merge_pass_ne_nil p.1 p.2 rule.new_token_id tokens hne
      have hcnt := merge_pass_length_add_marks p.1 p.2 rule.new_token_id tokens
      rw [Prod.mk.eta] at hcnt
      obtain ⟨out, rounds, merged2, hrun, hout, hnc, hr1, hr2, hm⟩ :=
        ih (merge_pass p.1 p.2 rule.new_token_id tokens) (by omega) hnn (round + 1)
          (merged + count_marks (mark_merges_parallel tokens p))
      refine ⟨out, rounds, merged2, ?_, hout, hnc, by omega, by omega, by omega⟩
      intro fuel hfuel
      obtain ⟨f, rfl⟩ : ∃ f, fuel = f + 1 := ⟨fuel - 1, by omega⟩
      simp only [encode_loop, hf, hrule, happly]
      exact hrun f (by omega)

/-- The encoder returns, with the same result for every fuel at least the input length. -/
theorem encode_spec {rt : OmpRuntime} (hrt : rt.valid) (merges : MergeTable)
    (s : List Int) :
    ∃ out rounds merged,
      (∀ fuel, s.length ≤ fuel →
        block_bpe_encode_fuel fuel rt s merges = Outcome.done out rounds merged) ∧
      (s = [] → out = []) ∧ no_candidate merges out ∧
      rounds + out.length ≤ s.length ∧ merged + out.length = s.length := by
  by_cases hs : s = []
  · subst hs
    refine ⟨[], 0, 0, fun fuel _ => ?_, fun _ => rfl, ?_, le_refl _, rfl⟩
    · simp [block_bpe_encode_fuel]
    · intro i hi
      exact absurd hi (Nat.not_lt_zero _)
  · obtain ⟨out, rounds, merged, hrun, _, hnc, hr1, _, hm⟩ :=
      encode_loop_spec hrt merges s.length s (le_refl _) hs 0 0
    refine ⟨out, rounds, merged, fun fuel hfuel => ?_, fun h => absurd h hs, hnc,
      by omega, by omega⟩
    unfold block_bpe_encode_fuel
    rw [if_neg hs]
    exact hrun fuel hfuel

/-- Encoding a sequence on which the Pair Finder finds nothing returns it unchanged. -/
theorem encode_fixpoint {rt : OmpRuntime} (hrt : rt.valid) (merges : MergeTable)
    (out : List Int) (h : no_candidate merges out) :
    block_bpe_encode_parallel rt out merges = Outcome.done out 0 0 := by
  unfold block_bpe_encode_parallel block_bpe_encode_fuel
  by_cases hs : out = []
  · rw [if_pos hs]
  · rw [if_neg hs]
    have hpos : 0 < out.length := List.length_pos.mpr hs
    obtain ⟨f, hf⟩ : ∃ f, out.length = f + 1 := ⟨out.length - 1, by omega⟩
    rw [hf]
    have hnone := (find_none_iff_no_candidate (hrt.1 0 (out.length - 1)) merges).2 h
    simp only [encode_loop, hnone]

/-! ## Worker-count invariance -/

/-- With distinct ranks for distinct pairs the Pair Finder does not depend on the
schedule. -/
theorem find_schedule_independent {sh1 sh2 : List (List Nat)} {tokens : List Int}
    (h1 : is_schedule sh1 (tokens.length - 1)) (h2 : is_schedule sh2 (tokens.length - 1))
    {merges : MergeTable} (hT : rank_injective merges) :
    find_best_pair_parallel sh1 tokens merges = find_best_pair_parallel sh2 tokens merges := by
  cases hf1 : find_best_pair_parallel sh1 tokens merges with
  | none =>
    exact ((find_none_iff h2 merges).2 ((find_none_iff h1 merges).1 hf1)).symm
  | some p1 =>
    cases hf2 : find_best_pair_parallel sh2 tokens merges with
    | none =>
      have := (find_none_iff h1 merges).2 ((find_none_iff h2 merges).1 hf2)
      rw [hf1] at this
      cases this
    | some p2 =>
      obtain ⟨i1, hi1, hp1, r1, hr1, _, hmin1⟩ := find_some_spec h1 hf1
      obtain ⟨i2, hi2, hp2, r2, hr2, _, hmin2⟩ := find_some_spec h2 hf2
      have a := hmin1 i2 hi2 r2 (by rw [← hp2]; exact hr2)
      have b := hmin2 i1 hi1 r1 (by rw [← hp1]; exact hr1)
      rw [hT p1 p2 r1 r2 hr1 hr2 (le_antisymm a b)]

theorem encode_loop_runtime_independent {rt1 rt2 : OmpRuntime} (h1 : rt1.valid)
    (h2 : rt2.valid) {merges : MergeTable} (hT : rank_injective merges) :
    ∀ (fuel round merged : Nat) (tokens : List Int),
      encode_loop rt1 merges fuel round merged tokens =
        encode_loop rt2 merges fuel round merged tokens := by
  intro fuel
  induction fuel with
  | zero => intro round merged tokens; rfl
  | succ fuel ih =>
    intro round merged tokens
    have hfind : find_best_pair_parallel (rt1.shards round (tokens.length - 1)) tokens merges =
        find_best_pair_parallel (rt2.shards round (tokens.length - 1)) tokens merges :=
      find_schedule_independent (h1.1 round (tokens.length - 1))
        (h2.1 round (tokens.length - 1)) hT
    cases hf : find_best_pair_parallel (rt1.shards round (tokens.length - 1)) tokens merges with
    | none =>
      have hf2 := hf
      rw [hfind] at hf2
      simp only [encode_loop, hf, hf2]
    | some p =>
      have hf2 := hf
      rw [hfind] at hf2
      obtain ⟨rule, hrule, happly1, _⟩ := round_spec h1 hf
      obtain ⟨rule2, hrule2, happly2, _⟩ := round_spec h2 hf2
      rw [hrule] at hrule2
      cases hrule2
      simp only [encode_loop, hf, hf2, hrule, happly1, happly2]
      exact ih _ _ _

/-! ## Compactor: postcondition of the scatter under the Mark Set invariant -/

theorem lookup_mem {merges : MergeTable} {p : Int × Int} {r : MergeRule}
    (h : merges.lookup p = some r) : (p, r) ∈ merges := by
  induction merges with
  | nil => simp [List.lookup] at h
  | cons e rest ih =>
    obtain ⟨k, v⟩ := e
    rw [List.lookup_cons] at h
    by_cases hk : (p == k) = true
    · rw [hk] at h
      have hpk : p = k := by simpa using hk
      cases h
      rw [hpk]
      exact List.mem_cons_self _ _
    · have hk2 : (p == k) = false := by simpa using hk
      rw [hk2] at h
      exact List.mem_cons_of_mem _ (ih h)

theorem ranks_below_sentinel_of_forall {merges : MergeTable}
    (h : ∀ e ∈ merges, e.2.rank < INT_MAX) : ranks_below_sentinel merges :=
  fun p r hl => h (p, r) (lookup_mem hl)

theorem rank_injective_of_forall {merges : MergeTable}
    (h : ∀ e1 ∈ merges, ∀ e2 ∈ merges, e1.2.rank = e2.2.rank → e1.1 = e2.1) :
    rank_injective merges :=
  fun p q rp rq hp hq hr => h (p, rp) (lookup_mem hp) (q, rq) (lookup_mem hq) hr

theorem no_candidate_iff_no_mergeable {merges : MergeTable} (hT : ranks_below_sentinel merges)
    (tokens : List Int) : no_candidate merges tokens ↔ no_mergeable_pair merges tokens := by
  constructor
  · intro h i hi
    cases hl : merges.lookup (pair_at tokens i) with
    | none => rfl
    | some r =>
      have h1 := h i hi r hl
      have h2 := hT _ r hl
      exact absurd (lt_of_lt_of_le h2 h1) (lt_irrefl _)
  · intro h i hi r hr
    rw [h i hi] at hr
    cases hr

theorem compacted_getElem (tokens : List Int) (marks : List Nat) (m : Int) (i : Nat)
    (hi : emit_val marks i ≠ 0) (d : Nat) :
    (compacted tokens marks m (i + 1 + d))[(compacted tokens marks m i).length]? =
      some (out_val tokens marks m i) := by
  induction d with
  | zero =>
    rw [Nat.add_zero, compacted_succ, if_neg hi]
    simp
  | succ d ih =>
    have hlt : (compacted tokens marks m i).length < (compacted tokens marks m (i + 1 + d)).length := by
      by_contra hc
      rw [List.getElem?_eq_none (by omega)] at ih
      cases ih
    rw [← Nat.add_assoc, compacted_succ]
    by_cases he : emit_val marks (i + 1 + d) = 0
    · rw [if_pos he]
      exact ih
    · rw [if_neg he, List.getElem?_append_left hlt]
      exact ih

/-- Under the Mark Set invariant the emitting indices below `j` are `j` minus the marks
below `j - 1`. -/
theorem range_sum_emit_count (marks : List Nat) (n : Nat)
    (hadj : ∀ i, marks.getD i 0 = 1 → marks.getD (i + 1) 0 ≠ 1) (j : Nat) (hj : j ≤ n) :
    range_sum (emit_flags marks n) 0 j + (marks.take (j - 1)).count 1 = j := by
  induction j with
  | zero => simp [range_sum_zero]
  | succ j ih =>
    rw [range_sum_emit_succ marks n j (by omega)]
    have ih2 := ih (by omega)
    cases j with
    | zero =>
      have : emit_val marks 0 = 1 := by
        rcases emit_val_cases marks 0 with h | h
        · have := (emit_val_eq_zero_iff marks 0).1 h
          omega
        · exact h
      rw [this]
      simp [range_sum_zero]
    | succ j =>
      have e1 : j + 1 + 1 - 1 = j + 1 := rfl
      have e2 : j + 1 - 1 = j := rfl
      rw [e1]
      rw [e2] at ih2
      rw [List.take_succ, List.count_append]
      by_cases hm : marks.getD j 0 = 1
      · have hz : emit_val marks (j + 1) = 0 :=
          (emit_val_eq_zero_iff marks (j + 1)).2 ⟨hadj j hm, by omega, hm⟩
        rw [hz]
        have hc : (marks[j]?.toList).count 1 = 1 := by
          rw [List.getD_eq_getElem?_getD] at hm
          cases hq : marks[j]? with
          | none => rw [hq] at hm; simp at hm
          | some v =>
            rw [hq] at hm
            simp only [Option.getD_some] at hm
            subst hm
            simp
        rw [hc]
        omega
      · have hz : emit_val marks (j + 1) = 1 := by
          rcases emit_val_cases marks (j + 1) with h | h
          · exact absurd ((emit_val_eq_zero_iff marks (j + 1)).1 h).2.2 hm
          · exact h
        rw [hz]
        have hc : (marks[j]?.toList).count 1 = 0 := by
          rw [List.getD_eq_getElem?_getD] at hm
          cases hq : marks[j]? with
          | none => simp
          | some v =>
            rw [hq] at hm
            simp only [Option.getD_some] at hm
            simp only [Option.toList_some]
            exact List.count_eq_zero.mpr (by simpa using fun h => hm h.symm)
        rw [hc]
        omega

theorem count_marks_take_last (marks : List Nat) (n : Nat) (hlen : marks.length = n)
    (hlast : marks.getD (n - 1) 0 ≠ 1) : (marks.take (n - 1)).count 1 = count_marks marks := by
  unfold count_marks
  cases n with
  | zero =>
    have : marks = [] := List.length_eq_zero.mp hlen
    subst this
    rfl
  | succ n =>
    have e : n + 1 - 1 = n := rfl
    rw [e] at hlast ⊢
    have hsplit : marks = marks.take n ++ [marks.getD n 0] := by
      have h1 : marks.take (n + 1) = marks := List.take_of_length_le (by omega)
      have h2 : marks.take (n + 1) = marks.take n ++ marks[n]?.toList := List.take_succ
      rw [h1] at h2
      rw [List.getD_eq_getElem?_getD, List.getElem?_eq_getElem (by omega)]
      rw [List.getElem?_eq_getElem (by omega)] at h2
      simpa using h2
    conv_rhs => rw [hsplit]
    rw [List.count_append]
    have hc : ([marks.getD n 0]).count 1 = 0 := by
      rw [List.count_eq_zero]
      intro hmem
      rw [List.mem_singleton] at hmem
      exact hlast hmem.symm
    rw [hc, Nat.add_zero]

/-! ## Claims -/

/-- C1. Fixpoint idempotence: for every token sequence `s` and every merge table `T`, the
encoder returns a sequence `out`, and encoding `out` again (under any runtime) returns
`out` unchanged, without executing a merge round. -/
theorem C1_fixpoint_idempotence (rt1 rt2 : OmpRuntime) (h1 : rt1.valid) (h2 : rt2.valid)
    (s : List Int) (T : MergeTable) :
    ∃ out rounds merged,
      block_bpe_encode_parallel rt1 s T = Outcome.done out rounds merged ∧
      block_bpe_encode_parallel rt2 out T = Outcome.done out 0 0 := by
  obtain ⟨out, rounds, merged, hrun, _, hnc, _, _⟩ := encode_spec h1 T s
  exact ⟨out, rounds, merged, hrun s.length (le_refl _), encode_fixpoint h2 T out hnc⟩

/-- Witness of C1 on Scenario A with two and eight workers. -/
theorem C1_fixpoint_idempotence_witness :
    (omp_static 2).valid ∧ (omp_static_rev 8).valid ∧
    block_bpe_encode_parallel (omp_static 2) [1, 2, 1, 2, 3] [((1, 2), ⟨0, 99⟩)]
      = Outcome.done [99, 99, 3] 1 2 ∧
    ∃ out rounds merged,
      block_bpe_encode_parallel (omp_static 2) [1, 2, 1, 2, 3] [((1, 2), ⟨0, 99⟩)]
        = Outcome.done out rounds merged ∧
      block_bpe_encode_parallel (omp_static_rev 8) out [((1, 2), ⟨0, 99⟩)]
        = Outcome.done out 0 0 :=
  ⟨omp_static_valid (by decide), omp_static_rev_valid (by decide), by decide,
    C1_fixpoint_idempotence (omp_static 2) (omp_static_rev 8) (omp_static_valid (by decide))
      (omp_static_rev_valid (by decide)) [1, 2, 1, 2, 3] [((1, 2), ⟨0, 99⟩)]⟩

/-- C5. Mark Set invariant: the array returned by the Marker has the same length as the
sequence, never has `marks[i]` and `marks[i+1]` both set, and never has the last index
set. -/
theorem C5_mark_set_invariant (tokens : List Int) (best_pair : Int × Int) :
    (mark_merges_parallel tokens best_pair).length = tokens.length ∧
    (∀ i, ¬ ((mark_merges_parallel tokens best_pair).getD i 0 = 1 ∧
      (mark_merges_parallel tokens best_pair).getD (i + 1) 0 = 1)) ∧
    (mark_merges_parallel tokens best_pair).getD (tokens.length - 1) 0 ≠ 1 :=
  ⟨mark_length tokens best_pair,
    fun i h => mark_no_adjacent tokens best_pair i h.1 h.2,
    mark_last tokens best_pair (tokens.length - 1) (by omega)⟩

/-- C8. The two-level scan equals the sequential scan: for every array `emit` and every
worker count `k >= 1` (including `k = 1` and `k > n`), splitting the indices into the `k`
chunks `[n*t/k, n*(t+1)/k)`, scanning each chunk locally and adding to each chunk the sum of
the totals of the preceding chunks yields `scan[i] = emit[0] + ... + emit[i]` for every `i`,
which is the single-threaded inclusive scan of the whole array. -/
theorem C8_two_level_scan (emit : List Nat) (k : Nat) (hk : 0 < k) :
    scan_two_level emit emit.length k = inclusive_scan emit ∧
    ∀ i, i < emit.length →
      (scan_two_level emit emit.length k).getD i 0 = (emit.take (i + 1)).sum := by
  refine ⟨scan_two_level_eq_inclusive emit k hk, fun i hi => ?_⟩
  rw [scan_two_level_getD emit emit.length k hk i hi, range_sum_eq_take]

/-- Witness of C8 with more workers than elements. -/
theorem C8_two_level_scan_witness :
    0 < 8 ∧
    scan_two_level [1, 0, 1, 1, 0] 5 3 = [1, 1, 2, 3, 3] ∧
    scan_two_level [1, 0, 1, 1, 0] ([1, 0, 1, 1, 0] : List Nat).length 8 =
      inclusive_scan [1, 0, 1, 1, 0] :=
  ⟨by decide, by decide, (C8_two_level_scan [1, 0, 1, 1, 0] 8 (by decide)).1⟩

/-- C9. Worker-count invariance: for every token sequence `s` and every merge table `T` in
which distinct pairs have distinct ranks, the result of the encoder is the same under any
two runtimes, whatever their worker counts, their split of the Pair Finder's loop into
shards, the order in which shard results are combined and the chunking of the scan. -/
theorem C9_worker_count_invariance (rt1 rt2 : OmpRuntime) (h1 : rt1.valid)
    (h2 : rt2.valid) (s : List Int) (T : MergeTable) (hT : rank_injective T) :
    block_bpe_encode_parallel rt1 s T = block_bpe_encode_parallel rt2 s T := by
  unfold block_bpe_encode_parallel block_bpe_encode_fuel
  by_cases hs : s = []
  · rw [if_pos hs, if_pos hs]
  · rw [if_neg hs, if_neg hs]
    exact encode_loop_runtime_independent h1 h2 hT _ _ _ _

/-- Witness of C9 on Scenario D with worker counts 1 and 8 (shards combined in reverse
thread order). -/
theorem C9_worker_count_invariance_witness :
    (omp_static 1).valid ∧ (omp_static_rev 8).valid ∧
    rank_injective [((1, 2), ⟨5, 50⟩), ((2, 3), ⟨1, 60⟩)] ∧
    block_bpe_encode_parallel (omp_static 2) [1, 2, 3] [((1, 2), ⟨5, 50⟩), ((2, 3), ⟨1, 60⟩)]
      = Outcome.done [1, 60] 1 1 ∧
    block_bpe_encode_parallel (omp_static 1) [1, 2, 3] [((1, 2), ⟨5, 50⟩), ((2, 3), ⟨1, 60⟩)]
      = block_bpe_encode_parallel (omp_static_rev 8) [1, 2, 3]
          [((1, 2), ⟨5, 50⟩), ((2, 3), ⟨1, 60⟩)] :=
  ⟨omp_static_valid (by decide), omp_static_rev_valid (by decide),
    rank_injective_of_forall (by decide), by decide,
    C9_worker_count_invariance (omp_static 1) (omp_static_rev 8)
      (omp_static_valid (by decide)) (omp_static_rev_valid (by decide)) [1, 2, 3]
      [((1, 2), ⟨5, 50⟩), ((2, 3), ⟨1, 60⟩)] (rank_injective_of_forall (by decide))⟩

/-- C10. Termination with a round bound: for every token sequence `s` and every merge table
`T` the loop terminates (with the same result for every bound on the iterations that is at
least the length of `s`), and the number of rounds in which the Pair Finder returned a pair
is at most `length(s) - length(output)`. -/
theorem C10_termination_round_bound (rt : OmpRuntime) (hrt : rt.valid) (s : List Int)
    (T : MergeTable) :
    ∃ out rounds merged,
      block_bpe_encode_parallel rt s T = Outcome.done out rounds merged ∧
      (∀ fuel, s.length ≤ fuel →
        block_bpe_encode_fuel fuel rt s T = Outcome.done out rounds merged) ∧
      out.length ≤ s.length ∧ rounds ≤ s.length - out.length := by
  obtain ⟨out, rounds, merged, hrun, _, _, hr, _⟩ := encode_spec hrt T s
  exact ⟨out, rounds, merged, hrun s.length (le_refl _), hrun, by omega, by omega⟩

/-- Witness of C10 on Scenario B: one round, three tokens in, two out. -/
theorem C10_termination_round_bound_witness :
    (omp_static 2).valid ∧
    block_bpe_encode_parallel (omp_static 2) [1, 1, 1] [((1, 1), ⟨0, 7⟩)]
      = Outcome.done [7, 1] 1 1 ∧
    ∃ out rounds merged,
      block_bpe_encode_parallel (omp_static 2) [1, 1, 1] [((1, 1), ⟨0, 7⟩)]
        = Outcome.done out rounds merged ∧
      (∀ fuel, ([1, 1, 1] : List Int).length ≤ fuel →
        block_bpe_encode_fuel fuel (omp_static 2) [1, 1, 1] [((1, 1), ⟨0, 7⟩)]
          = Outcome.done out rounds merged) ∧
      out.length ≤ ([1, 1, 1] : List Int).length ∧
      rounds ≤ ([1, 1, 1] : List Int).length - out.length :=
  ⟨omp_static_valid (by decide), by decide,
    C10_termination_round_bound (omp_static 2) (omp_static_valid (by decide)) [1, 1, 1]
      [((1, 1), ⟨0, 7⟩)]⟩

/-! ## Claims, continued -/

theorem occurs_length {left right : Int} {tokens : List Int} (h : occurs left right tokens) :
    2 ≤ tokens.length := by
  obtain ⟨i, hi, _⟩ := h
  omega

/-- A round on a sequence in which the pair occurs commits at least one merge and removes
exactly one element per committed merge. -/
theorem round_progress (nthr : Nat) (hk : 0 < nthr) (tokens : List Int) (p : Int × Int)
    (m : Int) (hocc : occurs p.1 p.2 tokens) :
    1 ≤ count_marks (mark_merges_parallel tokens p) ∧
    (apply_merges_parallel nthr tokens (mark_merges_parallel tokens p) m).length +
      count_marks (mark_merges_parallel tokens p) = tokens.length ∧
    1 ≤ (apply_merges_parallel nthr tokens (mark_merges_parallel tokens p) m).length := by
  obtain ⟨left, right⟩ := p
  rw [round_eq_merge_pass nthr hk]
  have hlt := merge_pass_length_lt left right m tokens hocc
  have hadd := merge_pass_length_add_marks left right m tokens
  have hne : tokens ≠ [] := by
    intro h
    have := occurs_length hocc
    rw [h] at this
    exact absurd this (by decide)
  have hnn := List.length_pos.mpr (merge_pass_ne_nil left right m tokens hne)
  exact ⟨by omega, hadd, hnn⟩

theorem no_candidate_short (merges : MergeTable) (tokens : List Int)
    (h : tokens.length < 2) : no_candidate merges tokens := by
  intro i hi
  omega

theorem merge_pass_short (left right m : Int) (tokens : List Int) (h : tokens.length < 2) :
    merge_pass left right m tokens = tokens := by
  match tokens, h with
  | [], _ => rfl
  | [_], _ => rfl
  | _ :: _ :: _, h =>
    simp only [List.length_cons] at h
    omega

/-- C14. Degenerate inputs are no-ops: the encoder returns `[]` on `[]` and `[x]` on `[x]`
without a merge round, and on every sequence of length below 2 the Compactor applied to the
marks of the Marker returns the sequence unchanged. -/
theorem C14_degenerate_inputs (rt : OmpRuntime) (hrt : rt.valid) (T : MergeTable) (x : Int)
    (nthr : Nat) (hk : 0 < nthr) (tokens : List Int) (hlen : tokens.length < 2)
    (p : Int × Int) (m : Int) :
    block_bpe_encode_parallel rt [] T = Outcome.done [] 0 0 ∧
    block_bpe_encode_parallel rt [x] T = Outcome.done [x] 0 0 ∧
    apply_merges_parallel nthr tokens (mark_merges_parallel tokens p) m = tokens := by
  refine ⟨?_, ?_, ?_⟩
  · exact encode_fixpoint hrt T [] (no_candidate_short T [] (by decide))
  · exact encode_fixpoint hrt T [x] (no_candidate_short T [x] (by simp))
  · obtain ⟨left, right⟩ := p
    rw [round_eq_merge_pass nthr hk, merge_pass_short left right m tokens hlen]

/-- Witness of C14 on Scenario C. -/
theorem C14_degenerate_inputs_witness :
    (omp_static 2).valid ∧ 0 < 2 ∧ ([5] : List Int).length < 2 ∧
    block_bpe_encode_parallel (omp_static 2) [] [((1, 2), ⟨0, 99⟩)] = Outcome.done [] 0 0 ∧
    block_bpe_encode_parallel (omp_static 2) [5] [((1, 2), ⟨0, 99⟩)] = Outcome.done [5] 0 0 ∧
    apply_merges_parallel 2 [5] (mark_merges_parallel [5] (1, 2)) 99 = [5] :=
  ⟨omp_static_valid (by decide), by decide, by decide,
    C14_degenerate_inputs (omp_static 2) (omp_static_valid (by decide))
      [((1, 2), ⟨0, 99⟩)] 5 2 (by decide) [5] (by decide) (1, 2) 99⟩

/-- C17 as stated fails: the combiner is not commutative on two partial results of equal
rank and different pairs. -/
theorem C17_counterexample :
    combine (0, (1, 2)) (0, (2, 3)) = (0, (1, 2)) ∧
    combine (0, (2, 3)) (0, (1, 2)) = (0, (2, 3)) ∧
    combine (0, (1, 2)) (0, (2, 3)) ≠ combine (0, (2, 3)) (0, (1, 2)) := by
  decide

/-- Inside a shard the loop body is the same combiner, applied to the rule just found. -/
theorem find_step_eq_combine (tokens : List Int) (merges : MergeTable) (best : Best)
    (i : Nat) (rule : MergeRule) (h : merges.lookup (pair_at tokens i) = some rule) :
    find_step tokens merges best i = combine best (rule.rank, pair_at tokens i) := by
  unfold find_step combine
  rw [h]

/-- C17, amended. The combiner is associative for all partial results, and
`combine(a, b) = combine(b, a)` for all partial results `a`, `b` that are equal whenever
their ranks are equal (as they are when ranks determine pairs). -/
theorem C17_combiner_laws (a b c : Best) :
    combine (combine a b) c = combine a (combine b c) ∧
    ((a.1 = b.1 → a = b) → combine a b = combine b a) := by
  constructor
  · unfold combine
    split_ifs <;> first | rfl | omega
  · intro hab
    unfold combine
    by_cases h1 : b.1 < a.1
    · rw [if_pos h1, if_neg (by omega)]
    · rw [if_neg h1]
      by_cases h2 : a.1 < b.1
      · rw [if_pos h2]
      · rw [if_neg h2]
        exact hab (by omega)

/-- Witness of the amended C17 on partial results of different ranks. -/
theorem C17_combiner_laws_witness :
    ((5 : Int) = 1 → ((5, (1, 2)) : Best) = (1, (2, 3))) ∧
    combine (5, (1, 2)) (1, (2, 3)) = (1, (2, 3)) ∧
    combine (5, (1, 2)) (1, (2, 3)) = combine (1, (2, 3)) (5, (1, 2)) :=
  ⟨fun h => absurd h (by decide), by decide,
    (C17_combiner_laws (5, (1, 2)) (1, (2, 3)) best_init).2
      (fun h => absurd h (by decide))⟩

theorem encode_loop_ne_out_of_range {rt : OmpRuntime} (hrt : rt.valid)
    (merges : MergeTable) :
    ∀ (fuel round merged : Nat) (tokens : List Int),
      encode_loop rt merges fuel round merged tokens ≠ Outcome.out_of_range := by
  intro fuel
  induction fuel with
  | zero =>
    intro round merged tokens h
    simp [encode_loop] at h
  | succ fuel ih =>
    intro round merged tokens
    cases hf : find_best_pair_parallel (rt.shards round (tokens.length - 1)) tokens merges with
    | none =>
      simp only [encode_loop, hf]
      intro h
      cases h
    | some p =>
      obtain ⟨rule, hrule, _, _⟩ := round_spec hrt hf
      simp only [encode_loop, hf, hrule]
      exact ih _ _ _

/-- C18. The merge-rule lookup in the encode loop cannot fail: whenever the Pair Finder
returns a pair `p`, `p` occurs in the sequence and is a key of the table, so `merges.at(p)`
never takes its out-of-range branch, whatever bound is put on the loop. -/
theorem C18_lookup_cannot_fail (rt : OmpRuntime) (hrt : rt.valid) (T : MergeTable) :
    (∀ round tokens p,
      find_best_pair_parallel (rt.shards round (tokens.length - 1)) tokens T = some p →
        occurs p.1 p.2 tokens ∧ ∃ rule, T.lookup p = some rule) ∧
    (∀ fuel s, block_bpe_encode_fuel fuel rt s T ≠ Outcome.out_of_range) ∧
    ∀ s, block_bpe_encode_parallel rt s T ≠ Outcome.out_of_range := by
  have hfuel : ∀ fuel s, block_bpe_encode_fuel fuel rt s T ≠ Outcome.out_of_range := by
    intro fuel s
    unfold block_bpe_encode_fuel
    by_cases hs : s = []
    · rw [if_pos hs]
      intro h
      cases h
    · rw [if_neg hs]
      exact encode_loop_ne_out_of_range hrt T _ _ _ _
  refine ⟨?_, hfuel, fun s => hfuel s.length s⟩
  intro round tokens p hf
  obtain ⟨rule, hrule, _, hocc⟩ := round_spec hrt hf
  exact ⟨hocc, rule, hrule⟩

/-- Witness of C18: the placeholder `(-1,-1)` is returned when it is a key that occurs. -/
theorem C18_lookup_cannot_fail_witness :
    (omp_static 2).valid ∧
    find_best_pair_parallel ((omp_static 2).shards 0 (([7, -1, -1] : List Int).length - 1))
      [7, -1, -1] [((-1, -1), ⟨3, 300⟩)] = some (-1, -1) ∧
    (occurs (-1) (-1) [7, -1, -1] ∧
      ∃ rule, List.lookup ((-1, -1) : Int × Int) [((-1, -1), (⟨3, 300⟩ : MergeRule))]
        = some rule) ∧
    block_bpe_encode_parallel (omp_static 2) [7, -1, -1] [((-1, -1), ⟨3, 300⟩)]
      ≠ Outcome.out_of_range :=
  ⟨omp_static_valid (by decide), by decide,
    (C18_lookup_cannot_fail (omp_static 2) (omp_static_valid (by decide))
      [((-1, -1), ⟨3, 300⟩)]).1 0 [7, -1, -1] (-1, -1) (by decide),
    (C18_lookup_cannot_fail (omp_static 2) (omp_static_valid (by decide))
      [((-1, -1), ⟨3, 300⟩)]).2.2 [7, -1, -1]⟩

/-! ## Compactor: the destination map -/

theorem emit_val_one_iff (marks : List Nat)
    (hadj : ∀ i, marks.getD i 0 = 1 → marks.getD (i + 1) 0 ≠ 1) (i : Nat) :
    emit_val marks i = 1 ↔ ¬ right_half marks i := by
  unfold right_half
  constructor
  · intro h hr
    have hnext : marks.getD i 0 ≠ 1 := by
      have := hadj (i - 1) hr.2
      have e : i - 1 + 1 = i := by omega
      rwa [e] at this
    have := (emit_val_eq_zero_iff marks i).2 ⟨hnext, hr.1, hr.2⟩
    omega
  · intro h
    rcases emit_val_cases marks i with h0 | h1
    · exact absurd ((emit_val_eq_zero_iff marks i).1 h0).2 h
    · exact h1

theorem dest_eq (nthr : Nat) (hk : 0 < nthr) (tokens : List Int) (marks : List Nat) (i : Nat)
    (hi : i < tokens.length) (he : emit_val marks i = 1) :
    dest nthr tokens marks i = range_sum (emit_flags marks tokens.length) 0 i ∧
    range_sum (emit_flags marks tokens.length) 0 (i + 1) =
      range_sum (emit_flags marks tokens.length) 0 i + 1 := by
  unfold dest
  rw [scan_two_level_getD _ _ nthr hk i hi, range_sum_emit_succ marks tokens.length i hi, he]
  exact ⟨rfl, rfl⟩

theorem exists_emitting (marks : List Nat) (n : Nat) :
    ∀ k, k ≤ n → ∀ q, q < range_sum (emit_flags marks n) 0 k →
      ∃ i, i < k ∧ emit_val marks i = 1 ∧ range_sum (emit_flags marks n) 0 i = q := by
  intro k
  induction k with
  | zero =>
    intro _ q hq
    rw [range_sum_zero] at hq
    exact absurd hq (Nat.not_lt_zero _)
  | succ k ih =>
    intro hk q hq
    rw [range_sum_emit_succ marks n k (by omega)] at hq
    by_cases hlt : q < range_sum (emit_flags marks n) 0 k
    · obtain ⟨i, hi, h1, h2⟩ := ih (by omega) q hlt
      exact ⟨i, by omega, h1, h2⟩
    · rcases emit_val_cases marks k with h0 | h1
      · omega
      · exact ⟨k, by omega, h1, by omega⟩

theorem countP_range_succ (P : Nat → Bool) (k : Nat) :
    (List.range (k + 1)).countP P =
      (List.range k).countP (fun i => P (i + 1)) + (if P 0 = true then 1 else 0) := by
  rw [List.range_succ_eq_map, List.countP_cons, List.countP_map]
  rfl

/-- Every selection of pairwise non-adjacent occurrences, given as a predicate on the
positions, selects at most as many positions as the Marker marks. -/
theorem greedy_max_countP (left right : Int) : ∀ (tokens : List Int) (P : Nat → Bool),
    (∀ i, P i = true → occurrence left right tokens i) →
    (∀ i, P i = true → P (i + 1) = false) →
    (List.range tokens.length).countP P ≤
      count_marks (mark_merges_parallel tokens (left, right))
  | [], P, _, _ => by simp
  | [a], P, hocc, _ => by
    have h0 : P 0 = false := by
      cases hp : P 0 with
      | false => rfl
      | true =>
        have := (hocc 0 hp).1
        simp only [List.length_cons, List.length_nil] at this
        omega
    have e : (List.range ([a] : List Int).length).countP P = 0 := by
      show (List.range 1).countP P = 0
      rw [countP_range_succ, h0]
      rfl
    rw [e]
    exact Nat.zero_le _
  | a :: b :: rest, P, hocc, hind => by
    rw [mark_cons_cons]
    by_cases h : a = left ∧ b = right
    · rw [if_pos h]
      have ih := greedy_max_countP left right rest (fun i => P (i + 2))
        (fun i hi => by
          obtain ⟨h1, h2, h3⟩ := hocc (i + 2) hi
          refine ⟨?_, ?_, ?_⟩
          · simp only [List.length_cons] at h1
            omega
          · simpa using h2
          · simpa using h3)
        (fun i hi => hind (i + 2) hi)
      have hc : count_marks (1 :: 0 :: mark_merges_parallel rest (left, right)) =
          count_marks (mark_merges_parallel rest (left, right)) + 1 := by
        unfold count_marks
        simp
      rw [hc]
      simp only [List.length_cons]
      rw [countP_range_succ, countP_range_succ]
      have h01 : (if P 0 = true then 1 else 0) + (if P (0 + 1) = true then 1 else 0) ≤ 1 := by
        cases hp : P 0 with
        | false =>
          simp only [Bool.false_eq_true, if_false, Nat.zero_add]
          split <;> omega
        | true =>
          have := hind 0 hp
          rw [this]
          simp
      have e : (List.range rest.length).countP (fun i => P (i + 1 + 1)) =
          (List.range rest.length).countP (fun i => P (i + 2)) := rfl
      rw [e]
      omega
    · rw [if_neg h]
      have h0 : P 0 = false := by
        cases hp : P 0 with
        | false => rfl
        | true =>
          obtain ⟨_, h2, h3⟩ := hocc 0 hp
          exact absurd ⟨by simpa using h2, by simpa using h3⟩ h
      have ih := greedy_max_countP left right (b :: rest) (fun i => P (i + 1))
        (fun i hi => by
          obtain ⟨h1, h2, h3⟩ := hocc (i + 1) hi
          refine ⟨?_, ?_, ?_⟩
          · simp only [List.length_cons] at h1 ⊢
            omega
          · simpa using h2
          · simpa using h3)
        (fun i hi => hind (i + 1) hi)
      have hc : count_marks (0 :: mark_merges_parallel (b :: rest) (left, right)) =
          count_marks (mark_merges_parallel (b :: rest) (left, right)) := by
        unfold count_marks
        simp
      rw [hc]
      have hl : (a :: b :: rest).length = (b :: rest).length + 1 := rfl
      rw [hl, countP_range_succ, h0]
      simpa using ih

theorem card_eq_countP (n : Nat) (S : Finset Nat) (h : ∀ i ∈ S, i < n) :
    S.card = (List.range n).countP (fun i => decide (i ∈ S)) := by
  have hS : S = (Finset.range n).filter (fun i => i ∈ S) := by
    ext i
    simp only [Finset.mem_filter, Finset.mem_range]
    exact ⟨fun hi => ⟨h i hi, hi⟩, fun hi => hi.2⟩
  conv_lhs => rw [hS]
  rw [List.countP_eq_length_filter]
  rfl

theorem ensure_token_fields (st : LoaderState) (w : Bytes) :
    (ensure_token st w).merges = st.merges ∧ (ensure_token st w).rank = st.rank ∧
    (ensure_token st w).parsed = st.parsed := by
  unfold ensure_token
  split <;> exact ⟨rfl, rfl, rfl⟩

theorem loader_init_inv : loader_inv loader_init := by
  refine ⟨rfl, ?_⟩
  intro key rule h
  simp [loader_init, List.lookup] at h

theorem add_rule_inv (st : LoaderState) (A B : Bytes) (h : loader_inv st) :
    loader_inv (add_rule st A B) := by
  obtain ⟨hrank, hall⟩ := h
  obtain ⟨m1, r1, p1⟩ := ensure_token_fields st A
  obtain ⟨m2, r2, p2⟩ := ensure_token_fields (ensure_token st A) B
  obtain ⟨m3, r3, p3⟩ := ensure_token_fields (ensure_token (ensure_token st A) B) (A ++ B)
  have hm : (ensure_token (ensure_token (ensure_token st A) B) (A ++ B)).merges = st.merges := by
    rw [m3, m2, m1]
  have hr : (ensure_token (ensure_token (ensure_token st A) B) (A ++ B)).rank = st.rank := by
    rw [r3, r2, r1]
  have hp : (ensure_token (ensure_token (ensure_token st A) B) (A ++ B)).parsed = st.parsed := by
    rw [p3, p2, p1]
  unfold add_rule loader_inv
  simp only [hm, hr, hp]
  refine ⟨by rw [List.length_append, hrank]; simp, ?_⟩
  intro key rule hl
  rw [List.lookup_cons] at hl
  split at hl
  · rename_i hk
    have hkey := eq_of_beq hk
    cases hl
    refine ⟨st.parsed.length, hrank, ?_, ?_⟩
    · rw [hkey]
      simp
    · intro j2 hj2
      rw [List.getElem?_eq_none (by simp; omega)]
      exact fun hc => by cases hc
  · rename_i hk
    have hkey := ne_of_beq_false hk
    obtain ⟨j, hj1, hj2, hj3⟩ := hall key rule hl
    have hjlt : j < st.parsed.length := by
      by_contra hc
      rw [List.getElem?_eq_none (by omega)] at hj2
      cases hj2
    refine ⟨j, hj1, ?_, ?_⟩
    · rw [List.getElem?_append_left hjlt]
      exact hj2
    · intro j2 hj
      by_cases hlt : j2 < st.parsed.length
      · rw [List.getElem?_append_left hlt]
        exact hj3 j2 hj
      · by_cases heq : j2 = st.parsed.length
        · subst heq
          simp only [List.getElem?_concat_length, ne_eq, Option.some.injEq]
          exact fun hc => hkey hc.symm
        · rw [List.getElem?_eq_none (by simp; omega)]
          exact fun hc => by cases hc

theorem process_line_inv (st : LoaderState) (line : Bytes) (h : loader_inv st) :
    loader_inv (process_line st line) := by
  unfold process_line
  split
  · exact h
  · split
    · exact h
    · exact add_rule_inv st _ _ h

theorem process_first_inv (st : LoaderState) (line : Bytes) (h : loader_inv st) :
    loader_inv (process_first st line) := by
  unfold process_first
  split
  · exact h
  · split
    · exact h
    · exact add_rule_inv st _ _ h

theorem foldl_process_line_inv (lines : List Bytes) :
    ∀ st, loader_inv st → loader_inv (lines.foldl process_line st) := by
  induction lines with
  | nil => exact fun st h => h
  | cons line rest ih => exact fun st h => ih _ (process_line_inv st line h)

theorem load_state_inv (file : Option (List Bytes)) : loader_inv (load_state file) := by
  unfold load_state
  cases file with
  | none => exact loader_init_inv
  | some lines =>
    exact foldl_process_line_inv lines.tail _ (process_first_inv _ _ loader_init_inv)

end BlockBPE
